import Mathlib

/-!
Shallow embedding of the xenobalanus repository (Rust): the derived-graph
builder (`GeometryData::add_triangle` / `preprocess`), the void detector
`delfin` (library variant in src/lib.rs and statistical variant in
src/main.rs), the density clusterer `dtscan` (src/lib.rs), and the concave
hull path ordering (`order_hull_edges`, src/lib.rs).

Modelling conventions:
* Coordinates are exact rationals.  `Point::distance` computes an f32
  Euclidean distance; since `sqrt` is strictly monotone on nonnegative
  inputs, an edge length is represented here by its square
  (`dist2`), which is exact in the rationals and order-equivalent to the
  ideal real length for every comparison the program performs.
* Rust `HashMap` / `HashSet` are modelled as association lists / duplicate
  free lists in insertion order; iteration over a hash container (whose
  order Rust leaves unspecified) is modelled as iteration in that insertion
  order, a determinization.  All properties proved about the traversals are
  independent of that choice.
* Out-of-bounds vector indexing panics in Rust; lookups are totalized with
  `getD` defaults.  The claims under consideration assume in-bounds indices.
* A separate small model of IEEE f32 classification (`F32`) is used for the
  non-NaN / `partial_cmp` safety claim; it tracks NaN and infinity
  propagation exactly and represents the value of a square root by its
  radicand (order-equivalent, as above).
-/

/- The Batteries rational operations are `@[irreducible]`; make them
reducible so that concrete instances can be settled by `decide`. -/
unseal Rat.add Rat.mul Rat.sub Rat.inv

abbrev Pt := ℚ × ℚ

/-- Squared Euclidean distance: the order-faithful rational representation of
`Point::distance` (src/lib.rs). -/
def dist2 (a b : Pt) : ℚ :=
  (b.1 - a.1) ^ 2 + (b.2 - a.2) ^ 2

/-- `Edge(usize, usize)`: canonical unordered pair, built with `(min, max)`
exactly as at src/lib.rs add_triangle and dtscan. -/
abbrev Edge := ℕ × ℕ

def mkEdge (u v : ℕ) : Edge := (min u v, max u v)

/-- `TriangleData` (src/lib.rs). -/
structure TriangleData where
  index : ℕ
  area : Option ℚ
  terminal_edge : Option Edge
  vertices : List ℕ
deriving DecidableEq, Repr

/-- `TriangleData::default()`. -/
def TriangleData.defaultRec : TriangleData :=
  { index := 0, area := none, terminal_edge := none, vertices := [] }

/-- `TriangleData::get_edges` (src/lib.rs): consecutive vertex pairs, wrapped
around, each canonicalized with the smaller endpoint first. -/
def TriangleData.getEdges (t : TriangleData) : List Edge :=
  if 3 ≤ t.vertices.length then
    (List.range t.vertices.length).map (fun i =>
      let v1 := t.vertices.getD i 0
      let v2 := if i + 1 < t.vertices.length then t.vertices.getD (i + 1) 0
                else t.vertices.getD 0 0
      if v1 < v2 then (v1, v2) else (v2, v1))
  else []

/-- Association-list lookup (model of `HashMap::get`). -/
def alookup {α β : Type} [DecidableEq α] : List (α × β) → α → Option β
  | [], _ => none
  | (a, b) :: rest, k => if a = k then some b else alookup rest k

/-- Association-list overwrite (model of `HashMap::insert`). -/
def aset {α β : Type} [DecidableEq α] : List (α × β) → α → β → List (α × β)
  | [], k, v => [(k, v)]
  | (a, b) :: rest, k, v =>
      if a = k then (k, v) :: rest else (a, b) :: aset rest k v

/-- Model of `HashMap::entry(k).or_default().push(v)`. -/
def apush {α β : Type} [DecidableEq α] : List (α × List β) → α → β → List (α × List β)
  | [], k, v => [(k, [v])]
  | (a, bs) :: rest, k, v =>
      if a = k then (a, bs ++ [v]) :: rest else (a, bs) :: apush rest k v

/-- Model of `HashMap::entry(k).or_insert_with(HashSet::new).insert(v)`. -/
def ainsert {α β : Type} [DecidableEq α] [DecidableEq β] :
    List (α × List β) → α → β → List (α × List β)
  | [], k, v => [(k, [v])]
  | (a, bs) :: rest, k, v =>
      if a = k then (a, if v ∈ bs then bs else bs ++ [v]) :: rest
      else (a, bs) :: ainsert rest k v

/-- `GeometryData` (src/lib.rs). -/
structure GeometryData where
  triangles : List TriangleData
  edge_to_triangles : List (Edge × List ℕ)
  edge_lengths : List (Edge × ℚ)
  vertex_connections : List (ℕ × List ℕ)
deriving DecidableEq, Repr

def GeometryData.emptyGD : GeometryData :=
  { triangles := [], edge_to_triangles := [], edge_lengths := [],
    vertex_connections := [] }

/-- Stable insertion step of the descending sort. -/
def insertDesc {α : Type} (x : α × ℚ) : List (α × ℚ) → List (α × ℚ)
  | [] => [x]
  | y :: ys => if y.2 > x.2 then y :: insertDesc x ys else x :: y :: ys

/-- Stable descending sort by the rational key: models Rust's stable
`sort_by(|a, b| b.1.partial_cmp(&a.1).unwrap())` (src/lib.rs add_triangle and
delfin, src/main.rs sorted_by). -/
def sortDesc {α : Type} : List (α × ℚ) → List (α × ℚ)
  | [] => []
  | x :: xs => insertDesc x (sortDesc xs)

/-- Ascending insertion step for `sort_unstable` on vertex indices. -/
def insertAsc (x : ℕ) : List ℕ → List ℕ
  | [] => [x]
  | y :: ys => if x ≤ y then x :: y :: ys else y :: insertAsc x ys

def sortAsc : List ℕ → List ℕ
  | [] => []
  | x :: xs => insertAsc x (sortAsc xs)

/-- The three `(edge, length)` pairs of a triangle in the source's listed
order v0v1, v1v2, v2v0 (src/lib.rs add_triangle). -/
def edgesWithLengths (points : List Pt) (tri : List ℕ) : List (Edge × ℚ) :=
  let t0 := tri.getD 0 0
  let t1 := tri.getD 1 0
  let t2 := tri.getD 2 0
  let pa := points.getD t0 (0, 0)
  let pb := points.getD t1 (0, 0)
  let pc := points.getD t2 (0, 0)
  [(mkEdge t0 t1, dist2 pa pb),
   (mkEdge t1 t2, dist2 pb pc),
   (mkEdge t2 t0, dist2 pc pa)]

/-- Shoelace area (src/lib.rs add_triangle; `unsigned_area` in src/main.rs
computes the same quantity). -/
def shoelace (points : List Pt) (tri : List ℕ) : ℚ :=
  let pa := points.getD (tri.getD 0 0) (0, 0)
  let pb := points.getD (tri.getD 1 0) (0, 0)
  let pc := points.getD (tri.getD 2 0) (0, 0)
  |pa.1 * (pb.2 - pc.2) + pb.1 * (pc.2 - pa.2) + pc.1 * (pa.2 - pb.2)| / 2

/-- Per-edge update of modes 0 and 1 (src/lib.rs add_triangle, first branch):
symmetric vertex connections, edge length, incident-triangle list. -/
def edgeUpdFull (index : ℕ) (g : GeometryData) (el : Edge × ℚ) : GeometryData :=
  { g with
    vertex_connections :=
      ainsert (ainsert g.vertex_connections el.1.1 el.1.2) el.1.2 el.1.1,
    edge_lengths := aset g.edge_lengths el.1 el.2,
    edge_to_triangles := apush g.edge_to_triangles el.1 index }

/-- Per-edge update of mode 2 (src/lib.rs add_triangle, else branch):
only edge length and incident-triangle list. -/
def edgeUpdSlim (index : ℕ) (g : GeometryData) (el : Edge × ℚ) : GeometryData :=
  { g with
    edge_lengths := aset g.edge_lengths el.1 el.2,
    edge_to_triangles := apush g.edge_to_triangles el.1 index }

/-- `GeometryData::add_triangle` (src/lib.rs).  The `types` build mode selects
which sub-structures are populated.  As in the source, the per-edge update
loop runs over the descending-sorted edge list, the triangle vector is
resized with defaults up to `index`, and the record is written only for
modes 0 and 2. -/
def addTriangle (gd : GeometryData) (index : ℕ) (points : List Pt)
    (tri : List ℕ) (types : ℕ) : GeometryData :=
  let verts := sortAsc [tri.getD 0 0, tri.getD 1 0, tri.getD 2 0]
  let ewl := sortDesc (edgesWithLengths points tri)
  let terminal : Option Edge := ewl.head?.map Prod.fst
  let area : Option ℚ :=
    if types = 0 ∨ types = 2 then some (shoelace points tri) else none
  let gd1 :=
    if types = 0 ∨ types = 1 then ewl.foldl (edgeUpdFull index) gd
    else ewl.foldl (edgeUpdSlim index) gd
  let tris1 :=
    if gd1.triangles.length ≤ index then
      gd1.triangles ++
        List.replicate (index + 1 - gd1.triangles.length) TriangleData.defaultRec
    else gd1.triangles
  let tris2 :=
    if types = 0 ∨ types = 2 then
      tris1.set index
        { index := index, area := area, terminal_edge := terminal,
          vertices := verts }
    else tris1
  { gd1 with triangles := tris2 }

/-- `par_chunks(3)`: split the flat triangulation into vertex triples (the
trailing short chunk, if any, is kept, as Rust keeps it). -/
def chunks3 : List ℕ → List (List ℕ)
  | a :: b :: c :: rest => [a, b, c] :: chunks3 rest
  | [] => []
  | l => [l]

/-- `Xenobalanus::preprocess` (src/lib.rs).  The parallel merge under the
single lock is modelled as a sequential fold in chunk order; every
per-triangle contribution is identical in any merge order. -/
def preprocess (points : List Pt) (triangulation : List ℕ) (types : ℕ) :
    GeometryData :=
  ((chunks3 triangulation).enum).foldl
    (fun gd it => addTriangle gd it.1 points it.2 types) GeometryData.emptyGD

/-- The edges of the record stored at triangle index `i`;
`triangles.get(i).map(get_edges)` yields no edges when `i` is out of range
(src/lib.rs delfin). -/
def triEdges (gd : GeometryData) (i : ℕ) : List Edge :=
  match gd.triangles.get? i with
  | some t => t.getEdges
  | none => []

/-- `HashSet<Edge>` insertion into the expansion queue. -/
def insertEdgeQ (q : List Edge) (e : Edge) : List Edge :=
  if e ∈ q then q else q ++ [e]

/-- One neighbor consideration of the delfin expansion (src/lib.rs delfin,
innermost loop): a neighbor that is unprocessed and whose own terminal edge
equals the popped edge `e` is added to the current set, marked processed,
and contributes its edges to the queue.  State is
`(current_set, processed, queue)`. -/
def delfinNbrStep (gd : GeometryData) (e : Edge)
    (s : List ℕ × List ℕ × List Edge) (n : ℕ) : List ℕ × List ℕ × List Edge :=
  if n ∈ s.2.1 then s
  else
    match gd.triangles.get? n with
    | none => s
    | some nd =>
      match nd.terminal_edge with
      | none => s
      | some te =>
        if te = e then
          ((if n ∈ s.1 then s.1 else s.1 ++ [n]), n :: s.2.1,
           nd.getEdges.foldl insertEdgeQ s.2.2)
        else s

/-- One popped edge of the delfin expansion (src/lib.rs delfin, inner loop):
consider every triangle incident to `e`. -/
def delfinEdgeStep (gd : GeometryData) (e : Edge)
    (st : List ℕ × List ℕ × List Edge) : List ℕ × List ℕ × List Edge :=
  ((alookup gd.edge_to_triangles e).getD []).foldl (delfinNbrStep gd e) st

/-- The delfin expansion loop (src/lib.rs delfin `while let Some(edge)`),
popping queue edges until the queue empties.  `fuel` bounds the number of
iterations; `delfin` supplies a provably sufficient budget. -/
def delfinExpand (gd : GeometryData) :
    ℕ → List Edge → List ℕ → List ℕ → List ℕ × List ℕ
  | 0, _, cur, proc => (cur, proc)
  | _ + 1, [], cur, proc => (cur, proc)
  | f + 1, e :: q, cur, proc =>
      let st := delfinEdgeStep gd e (cur, proc, q)
      delfinExpand gd f st.2.2 st.1 st.2.1

/-- Queue budget: every triangle is admitted at most once and contributes at
most `3` queue insertions, plus the seed's own three edges. -/
def delfinFuel (gd : GeometryData) : ℕ :=
  3 * gd.triangles.length + 4

/-- The filtered, descending-sorted seed list of src/lib.rs delfin:
triangles with a recorded terminal-edge length at least `min_distance`,
longest first. -/
def delfinSeeds (gd : GeometryData) (min_distance : ℚ) : List (ℕ × ℚ) :=
  sortDesc ((gd.triangles.filterMap (fun t =>
    t.terminal_edge.bind (fun e =>
      (alookup gd.edge_lengths e).map (fun l => (t.index, l))))).filter
        (fun p => min_distance ≤ p.2))

/-- One seed iteration of src/lib.rs delfin: skip processed seeds, otherwise
grow a region from the seed triangle, whose own edges form the initial
queue, and keep it when it has more than one triangle.  The accumulator is
`(void_polygons, processed_triangles)`. -/
def delfinStep (gd : GeometryData) (acc : List (List ℕ) × List ℕ)
    (p : ℕ × ℚ) : List (List ℕ) × List ℕ :=
  if p.1 ∈ acc.2 then acc
  else
    let q0 := (triEdges gd p.1).foldl insertEdgeQ []
    let r := delfinExpand gd (delfinFuel gd) q0 [p.1] (p.1 :: acc.2)
    if 1 < r.1.length then (acc.1 ++ [r.1], r.2) else (acc.1, r.2)

/-- Summed recorded area of a triangle set (src/lib.rs delfin retain
step). -/
def sumAreas (gd : GeometryData) (s : List ℕ) : ℚ :=
  (s.filterMap (fun i => (gd.triangles.getD i TriangleData.defaultRec).area)).sum

/-- `Xenobalanus::delfin` (src/lib.rs): greedy longest-terminal-edge-first
region growing, keeping regions with more than one triangle, then retaining
those whose summed area meets `min_area`. -/
def delfin (gd : GeometryData) (min_area min_distance : ℚ) : List (List ℕ) :=
  let polys := (delfinSeeds gd min_distance).foldl (delfinStep gd) ([], [])
  polys.1.filter (fun s => min_area ≤ sumAreas gd s)

/-- The core-vertex test of src/lib.rs dtscan: at least `min_pts` recorded
neighbors, every connecting edge with a recorded length within
`max_closeness`. -/
def isCore (gd : GeometryData) (min_pts : ℕ) (maxC : ℚ) (v : ℕ)
    (nbrs : List ℕ) : Bool :=
  min_pts ≤ nbrs.length &&
    nbrs.all (fun n =>
      match alookup gd.edge_lengths (mkEdge v n) with
      | some l => decide (l ≤ maxC)
      | none => false)

/-- The dtscan cluster expansion (src/lib.rs dtscan `while let
Some(current_vertex) = to_expand.pop()`): pop a vertex, skip it if visited,
otherwise visit it, append it to the cluster and push its unvisited
close neighbors. -/
def dtscanExpand (gd : GeometryData) (maxC : ℚ) :
    ℕ → List ℕ → List ℕ → List ℕ → List ℕ × List ℕ
  | 0, _, vis, cl => (cl, vis)
  | _ + 1, [], vis, cl => (cl, vis)
  | f + 1, cur :: rest, vis, cl =>
      if cur ∈ vis then dtscanExpand gd maxC f rest vis cl
      else
        let vis2 := cur :: vis
        let nbrs := (alookup gd.vertex_connections cur).getD []
        let pushes := nbrs.filter (fun n =>
          match alookup gd.edge_lengths (mkEdge cur n) with
          | some l => decide (l ≤ maxC) && !(decide (n ∈ vis2))
          | none => false)
        dtscanExpand gd maxC f (pushes ++ rest) vis2 (cl ++ [cur])

/-- Pop budget: one initial pop plus at most one push per recorded adjacency. -/
def dtscanFuel (gd : GeometryData) : ℕ :=
  1 + (gd.vertex_connections.map (fun p => 1 + p.2.length)).sum

/-- One vertex iteration of src/lib.rs dtscan: skip visited vertices, seed
and expand a cluster at an unvisited core vertex, and keep the cluster when
nonempty.  The accumulator is `(clusters, visited)`. -/
def dtscanStep (gd : GeometryData) (min_pts : ℕ) (maxC : ℚ)
    (acc : List (List ℕ) × List ℕ) (p : ℕ × List ℕ) :
    List (List ℕ) × List ℕ :=
  if p.1 ∈ acc.2 then acc
  else if isCore gd min_pts maxC p.1 p.2 then
    let r := dtscanExpand gd maxC (dtscanFuel gd) [p.1] acc.2 []
    if r.1.isEmpty then (acc.1, r.2) else (acc.1 ++ [r.1], r.2)
  else acc

/-- `Xenobalanus::dtscan` (src/lib.rs): iterate the vertex adjacency map,
seed a cluster at each unvisited core vertex, expand it, and keep it if
nonempty. -/
def dtscan (gd : GeometryData) (min_pts : ℕ) (maxC : ℚ) : List (List ℕ) :=
  (gd.vertex_connections.foldl (dtscanStep gd min_pts maxC) ([], [])).1

/-- Closeness-bounded adjacency: `x` is a recorded neighbor of `p` and the
recorded length of their connecting edge is within `maxC`.  Used to state
what dtscan's growth step admits. -/
def closeNbr (gd : GeometryData) (maxC : ℚ) (p x : ℕ) : Prop :=
  x ∈ (alookup gd.vertex_connections p).getD [] ∧
    ∃ l, alookup gd.edge_lengths (mkEdge p x) = some l ∧ l ≤ maxC

instance (gd : GeometryData) (maxC : ℚ) (p x : ℕ) :
    Decidable (closeNbr gd maxC p x) := by
  unfold closeNbr
  exact inferInstance

/-- `TriangleData` of src/main.rs (third vertex instead of the vertex list). -/
structure TriangleDataM where
  index : ℕ
  area : Option ℚ
  terminal_edge : Option Edge
  third_vertex : Option ℕ
deriving DecidableEq, Repr

def TriangleDataM.defaultRecM : TriangleDataM :=
  { index := 0, area := none, terminal_edge := none, third_vertex := none }

/-- `GeometryData` of src/main.rs. -/
structure GeometryDataM where
  triangles : List TriangleDataM
  edge_to_triangles : List (Edge × List ℕ)
  edge_lengths : List (Edge × ℚ)
  vertex_connections : List (ℕ × List ℕ)
deriving DecidableEq, Repr

def GeometryDataM.emptyGDM : GeometryDataM :=
  { triangles := [], edge_to_triangles := [], edge_lengths := [],
    vertex_connections := [] }

/-- `GeometryData::add_triangle` (src/main.rs): identical edge bookkeeping,
record pushed (not index-assigned), with the third vertex of the terminal
edge recorded. -/
def addTriangleM (gd : GeometryDataM) (index : ℕ) (points : List Pt)
    (tri : List ℕ) (types : ℕ) : GeometryDataM :=
  let ewl := sortDesc (edgesWithLengths points tri)
  let terminal : Option Edge := ewl.head?.map Prod.fst
  let third : Option ℕ :=
    match terminal with
    | some te => tri.find? (fun idx => decide (idx ≠ te.1) && decide (idx ≠ te.2))
    | none => none
  let area : Option ℚ :=
    if types = 0 ∨ types = 2 then some (shoelace points tri) else none
  let gd1 :=
    if types = 0 ∨ types = 1 then
      ewl.foldl (fun g el =>
        { g with
          vertex_connections :=
            ainsert (ainsert g.vertex_connections el.1.1 el.1.2) el.1.2 el.1.1,
          edge_lengths := aset g.edge_lengths el.1 el.2,
          edge_to_triangles := apush g.edge_to_triangles el.1 index }) gd
    else
      ewl.foldl (fun g el =>
        { g with
          edge_lengths := aset g.edge_lengths el.1 el.2,
          edge_to_triangles := apush g.edge_to_triangles el.1 index }) gd
  if types = 0 ∨ types = 2 then
    { gd1 with triangles := gd1.triangles ++
        [{ index := index, area := area, terminal_edge := terminal,
           third_vertex := third }] }
  else gd1

/-- `preprocess` (src/main.rs), sequentialized like `preprocess` above. -/
def preprocessM (points : List Pt) (triangulation : List ℕ) (types : ℕ) :
    GeometryDataM :=
  ((chunks3 triangulation).enum).foldl
    (fun gd it => addTriangleM gd it.1 points it.2 types) GeometryDataM.emptyGDM

/-- `mean_std` (src/main.rs), with the standard deviation carried as its
square (the variance), which is exact in the rationals; the comparison
helpers below consume the variance directly.  `none` models the NaN
mean/deviation of an empty dataset. -/
def meanVar (l : List ℚ) : Option (ℚ × ℚ) :=
  if l.isEmpty then none
  else
    let n : ℚ := l.length
    let m := l.sum / n
    some (m, (l.map (fun x => (x - m) ^ 2)).sum / n)

/-- Exact test for `(x - m) / std < d` where `std = sqrt v`, `v ≥ 0`, under
f32 ideal-arithmetic semantics: a zero deviation makes the z-score plus or
minus infinity (or NaN when `x = m`), none of which is `< d` except minus
infinity. -/
def zLt (x m v d : ℚ) : Bool :=
  if v = 0 then decide (x < m)
  else if x - m < 0 then
    (if 0 ≤ d then true else decide (d ^ 2 * v < (m - x) ^ 2))
  else
    (if d ≤ 0 then false else decide ((x - m) ^ 2 < d ^ 2 * v))

/-- `distance_z_score < min_distance` (src/main.rs delfin seed filter);
an empty dataset has NaN statistics and the comparison is false. -/
def zLtOpt (x : ℚ) (mv : Option (ℚ × ℚ)) (d : ℚ) : Bool :=
  match mv with
  | none => false
  | some (m, v) => zLt x m v d

/-- The area retention test of src/main.rs delfin: the z-score of the summed
area when the deviation is nonzero, the literal `-5.0` otherwise; NaN
statistics (empty dataset) never pass. -/
def areaZGe (x : ℚ) (mv : Option (ℚ × ℚ)) (d : ℚ) : Bool :=
  match mv with
  | none => false
  | some (m, v) =>
    if v = 0 then decide (d ≤ (-5 : ℚ))
    else if 0 ≤ x - m then
      (if d ≤ 0 then true else decide (d ^ 2 * v ≤ (x - m) ^ 2))
    else
      (if 0 < d then false else decide ((m - x) ^ 2 ≤ d ^ 2 * v))

/-- One neighbor consideration of the src/main.rs delfin expansion loop:
admit an unseen triangle sharing the seed's terminal edge.  State:
`(triangle_set, processed, newly queued)`. -/
def mainNbrStep (gd : GeometryDataM) (te : Edge)
    (acc : List ℕ × List ℕ × List ℕ) (n : ℕ) : List ℕ × List ℕ × List ℕ :=
  if n ∈ acc.1 ∨ n ∈ acc.2.1 then acc
  else
    match gd.triangles.get? n with
    | none => acc
    | some nd =>
      if nd.terminal_edge = some te then
        (acc.1 ++ [n], acc.2.1 ++ [n], acc.2.2 ++ [n])
      else acc

/-- The `while let Some(current_idx) = triangles_to_expand...` loop of
src/main.rs delfin.  Its body scans the fixed `connected` list (the
triangles sharing the seed's terminal edge) and admits those whose own
terminal edge equals the seed's; the popped element is unused by the body,
exactly as in the source.  State: queue, `triangle_set`, processed. -/
def mainExpand (gd : GeometryDataM) (connected : List ℕ) (te : Edge) :
    ℕ → List ℕ → List ℕ → List ℕ → List ℕ × List ℕ
  | 0, _, s, p => (s, p)
  | _ + 1, [], s, p => (s, p)
  | f + 1, _cur :: rest, s, p =>
      let step := connected.foldl (mainNbrStep gd te) (s, p, [])
      mainExpand gd connected te f (rest ++ step.2.2) step.1 step.2.1

/-- Insert into a `HashSet`-like duplicate-free list. -/
def dedupInsert (l : List ℕ) (x : ℕ) : List ℕ :=
  if x ∈ l then l else l ++ [x]

/-- `connected_triangles.iter().cloned().collect::<HashSet<_>>()`. -/
def dedupKeep (l : List ℕ) : List ℕ :=
  l.foldl dedupInsert []

/-- The descending-sorted seed list of src/main.rs delfin (no absolute
distance pre-filter; the z-score filter is applied per seed inside the
loop). -/
def mainDelfinSeeds (gd : GeometryDataM) : List (ℕ × ℚ) :=
  sortDesc (gd.triangles.filterMap (fun t =>
    t.terminal_edge.bind (fun e =>
      (alookup gd.edge_lengths e).map (fun l => (t.index, l)))))

/-- The terminal-edge-length population of src/main.rs delfin. -/
def mainLenStats (gd : GeometryDataM) : Option (ℚ × ℚ) :=
  meanVar (gd.triangles.filterMap (fun t =>
    t.terminal_edge.bind (fun e => alookup gd.edge_lengths e)))

/-- The triangle-area population of src/main.rs delfin. -/
def mainAreaStats (gd : GeometryDataM) : Option (ℚ × ℚ) :=
  meanVar (gd.triangles.filterMap (fun t => t.area))

/-- Summed area of a triangle set (src/main.rs delfin retain step). -/
def sumAreasM (gd : GeometryDataM) (s : List ℕ) : ℚ :=
  (s.filterMap (fun idx => (gd.triangles.get? idx).bind (fun td => td.area))).sum

/-- One seed iteration of src/main.rs delfin: skip processed or
insufficiently z-scored seeds and seeds whose terminal edge is shared by
fewer than two triangles; otherwise the region is the seed plus all
triangles sharing its terminal edge, run through the expansion loop. -/
def mainSeedStep (gd : GeometryDataM) (mvLen : Option (ℚ × ℚ))
    (min_distance : ℚ) (acc : List (List ℕ) × List ℕ) (p : ℕ × ℚ) :
    List (List ℕ) × List ℕ :=
  if p.1 ∈ acc.2 then acc
  else if zLtOpt p.2 mvLen min_distance then acc
  else
    match (gd.triangles.getD p.1 TriangleDataM.defaultRecM).terminal_edge with
    | none => acc
    | some te =>
      match alookup gd.edge_to_triangles te with
      | none => acc
      | some connected =>
        if connected.length < 2 then acc
        else
          let seedSet := dedupInsert (dedupKeep connected) p.1
          let proc2 := seedSet.foldl dedupInsert acc.2
          let r := mainExpand gd connected te
            (connected.length + seedSet.length + 1) seedSet seedSet proc2
          (acc.1 ++ [r.1], r.2)

/-- `delfin` (src/main.rs) up to and including the retain filter: the
regions as triangle-index sets, taken longest terminal edge first; the
retain step keeps regions with an area z-score at least `min_area` and at
least three triangles. -/
def mainDelfinRegions (gd : GeometryDataM) (min_area min_distance : ℚ) :
    List (List ℕ) :=
  let mvArea := mainAreaStats gd
  let polys := (mainDelfinSeeds gd).foldl
    (mainSeedStep gd (mainLenStats gd) min_distance) ([], [])
  polys.1.filter (fun s =>
    areaZGe (sumAreasM gd s) mvArea min_area && decide (3 ≤ s.length))

/-- The final vertex-set conversion of src/main.rs delfin. -/
def mainDelfin (gd : GeometryDataM) (min_area min_distance : ℚ) :
    List (List (List ℕ)) :=
  (mainDelfinRegions gd min_area min_distance).map (fun ts =>
    ts.map (fun i =>
      let t := gd.triangles.getD i TriangleDataM.defaultRecM
      let v1 := match t.terminal_edge with
        | some te => dedupInsert (dedupInsert [] te.1) te.2
        | none => []
      match t.third_vertex with
      | some tv => dedupInsert v1 tv
      | none => v1))

/-- One search of the `for &(p1_idx, p2_idx) in &hull_edge_indices` loop in
`order_hull_edges` (src/lib.rs): the first edge incident to `current` whose
other endpoint is unvisited yields that endpoint. -/
def findStep (current : ℕ) (visited : List ℕ) :
    List (ℕ × ℕ) → Option ℕ
  | [] => none
  | (p1, p2) :: rest =>
      if p1 = current ∧ p2 ∉ visited then some p2
      else if p2 = current ∧ p1 ∉ visited then some p1
      else findStep current visited rest

/-- The `while visited.len() < hull_edge_indices.len() + 1` walk of
`order_hull_edges`; `steps` is the number of vertices still to visit, which
decreases by exactly one per successful iteration. -/
def orderWalk (edges : List (ℕ × ℕ)) :
    ℕ → ℕ → List ℕ → List ℕ → Except String (List ℕ)
  | 0, _, _, ordered => Except.ok ordered
  | steps + 1, current, visited, ordered =>
      match findStep current visited edges with
      | some nxt => orderWalk edges steps nxt (visited ++ [nxt]) (ordered ++ [nxt])
      | none =>
          Except.error "Failed to order all concave hull vertices into a continuous path."

/-- `Xenobalanus::order_hull_edges` (src/lib.rs).  Faithfully to the source,
the walk's `ordered_point_indices` is computed and then discarded: on
success the function returns the FIRST component of every input edge, in
input order. -/
def orderHullEdges (hull_edge_indices : List (ℕ × ℕ)) :
    Except String (List ℕ) :=
  match hull_edge_indices with
  | [] => Except.error "No edges provided."
  | (start_idx, current_idx) :: _ =>
      match orderWalk hull_edge_indices hull_edge_indices.length current_idx
          [start_idx] [start_idx] with
      | Except.ok _ => Except.ok (hull_edge_indices.map Prod.fst)
      | Except.error e => Except.error e

/-- The edge-counting phase of `Xenobalanus::concave_hull` (src/lib.rs),
over the sub-triangulation produced by the external Delaunay provider
(`delaunay_sub` consumes the `delaunator` crate, outside this repository),
which is therefore taken as an argument.  Edges shorter than `alpha` are
counted with multiplicity (here `alpha` compares squared lengths, consistent
with `dist2`). -/
def hullEdgeCounts (points : List Pt) (vertex_indices : List ℕ) (alpha : ℚ)
    (triangulation_indices : List ℕ) : List ((ℕ × ℕ) × ℕ) :=
  (chunks3 triangulation_indices).foldl (fun acc chunk =>
    if chunk.length = 3 then
      (List.range 3).foldl (fun acc2 i =>
        let s := vertex_indices.getD (chunk.getD i 0) 0
        let e := vertex_indices.getD (chunk.getD ((i + 1) % 3) 0) 0
        let edge := (min s e, max s e)
        let d := dist2 (points.getD s (0, 0)) (points.getD e (0, 0))
        if d < alpha then
          match alookup acc2 edge with
          | some c => aset acc2 edge (c + 1)
          | none => aset acc2 edge 1
        else acc2) acc
    else acc) []

/-- `Xenobalanus::concave_hull` (src/lib.rs), parametrized by the external
sub-triangulation result. -/
def concaveHull (points : List Pt) (vertex_indices : List ℕ) (alpha : ℚ)
    (triangulation_indices : List ℕ) : Except String (List ℕ) :=
  if triangulation_indices.isEmpty then
    Except.error "Delaunay triangulation failed or no triangles were formed."
  else
    let hull_edge_indices :=
      (hullEdgeCounts points vertex_indices alpha triangulation_indices).filterMap
        (fun p => if p.2 = 1 then some p.1 else none)
    if hull_edge_indices.isEmpty then
      Except.error "No edges meet the criteria for the concave hull."
    else orderHullEdges hull_edge_indices

/-- Modelled from the spec: the first-listed element among those of maximal
key, the tie-break the spec ascribes to the stable descending sort
("first maximal element under a stable descending sort is kept"). -/
def firstMaxBy {α : Type} : List (α × ℚ) → Option (α × ℚ)
  | [] => none
  | x :: xs =>
      match firstMaxBy xs with
      | none => some x
      | some m => if m.2 > x.2 then some m else some x

/-- Ideal-arithmetic model of an f32 value for the NaN-propagation claim:
NaN, the two infinities, or a finite value.  A finite value is carried as an
exact rational; for a square root the radicand is carried instead of the
root (the map is strictly monotone, so every ordering comparison agrees with
the ideal real value).  Rounding is not modelled; in real f32 arithmetic
overflow of a finite operation yields an infinity, never a NaN, so the NaN
classification proved here matches the machine behavior. -/
inductive F32 where
  | nan : F32
  | ninf : F32
  | pinf : F32
  | fin : ℚ → F32
deriving DecidableEq, Repr

/-- f32 subtraction, classification level. -/
def fsub : F32 → F32 → F32
  | F32.nan, _ => F32.nan
  | _, F32.nan => F32.nan
  | F32.pinf, F32.pinf => F32.nan
  | F32.ninf, F32.ninf => F32.nan
  | F32.pinf, _ => F32.pinf
  | F32.ninf, _ => F32.ninf
  | F32.fin _, F32.pinf => F32.ninf
  | F32.fin _, F32.ninf => F32.pinf
  | F32.fin a, F32.fin b => F32.fin (a - b)

/-- `powi(2)`. -/
def fsq : F32 → F32
  | F32.nan => F32.nan
  | F32.pinf => F32.pinf
  | F32.ninf => F32.pinf
  | F32.fin a => F32.fin (a * a)

/-- f32 addition, classification level. -/
def fadd : F32 → F32 → F32
  | F32.nan, _ => F32.nan
  | _, F32.nan => F32.nan
  | F32.pinf, F32.ninf => F32.nan
  | F32.ninf, F32.pinf => F32.nan
  | F32.pinf, _ => F32.pinf
  | _, F32.pinf => F32.pinf
  | F32.ninf, _ => F32.ninf
  | _, F32.ninf => F32.ninf
  | F32.fin a, F32.fin b => F32.fin (a + b)

/-- f32 square root: NaN on NaN or negative input; the finite result is
represented by its radicand. -/
def fsqrt : F32 → F32
  | F32.nan => F32.nan
  | F32.ninf => F32.nan
  | F32.pinf => F32.pinf
  | F32.fin a => if a < 0 then F32.nan else F32.fin a

def F32.isNaN : F32 → Bool
  | F32.nan => true
  | _ => false

/-- `PartialOrd::partial_cmp` on f32: `none` exactly when a NaN is involved. -/
def cmpF32 : F32 → F32 → Option Ordering
  | F32.nan, _ => none
  | _, F32.nan => none
  | F32.ninf, F32.ninf => some Ordering.eq
  | F32.ninf, _ => some Ordering.lt
  | _, F32.ninf => some Ordering.gt
  | F32.pinf, F32.pinf => some Ordering.eq
  | F32.pinf, _ => some Ordering.gt
  | _, F32.pinf => some Ordering.lt
  | F32.fin a, F32.fin b => some (compare a b)

/-- `Point::distance` (src/lib.rs) in the `F32` classification model. -/
def distF (a b : F32 × F32) : F32 :=
  fsqrt (fadd (fsq (fsub b.1 a.1)) (fsq (fsub b.2 a.2)))

/-- The three edge lengths computed by add_triangle, in the `F32` model. -/
def triLengthsF (pa pb pc : F32 × F32) : List F32 :=
  [distF pa pb, distF pb pc, distF pc pa]

def finiteF (x : F32) : Prop := ∃ q, x = F32.fin q

def finitePtF (p : F32 × F32) : Prop := finiteF p.1 ∧ finiteF p.2

/-- Two triangles far apart: vertices 0-2 near the origin, 3-5 near
(100, 100). -/
def ptsTwo : List Pt :=
  [(0, 0), (1, 0), (0, 1), (100, 100), (101, 100), (100, 101)]

def gdTwo : GeometryData := preprocess ptsTwo [0, 1, 2, 3, 4, 5] 0

/-- Two unit-square pairs of triangles far apart; in each pair the shared
diagonal is both triangles' terminal edge. -/
def ptsFour : List Pt :=
  [(0, 0), (4, 0), (4, 4), (0, 4), (100, 0), (104, 0), (104, 4), (100, 4)]

def gdFour : GeometryData :=
  preprocess ptsFour [0, 1, 2, 0, 2, 3, 4, 5, 6, 4, 6, 7] 0

/-- Two triangles sharing edge (0, 1): for triangle 0 that shared edge is
the terminal edge, while triangle 1 has another edge of exactly the same
length listed earlier, so its terminal edge differs from the shared edge. -/
def ptsTie : List Pt :=
  [(0, 0), (4, 0), (2, 1), (12/5, 16/5)]

def gdTie : GeometryData := preprocess ptsTie [0, 1, 2, 3, 0, 1] 0

/-- Three slim triangles all sharing edge (0, 1) as their terminal edge,
with pairwise different small areas (a non-manifold triangle soup, which
the builder accepts). -/
def ptsThin : List Pt :=
  [(0, 0), (1, 0), (1/2, 1/50), (1/2, 1/25), (1/2, 3/50)]

def gdThinM : GeometryDataM := preprocessM ptsThin [0, 1, 2, 0, 1, 3, 0, 1, 4] 0

/-- A single triangle, for instantiating the builder claims. -/
def ptsOne : List Pt := [(0, 0), (1, 0), (0, 1)]

/-- Branching ("star") boundary-edge input to order_hull_edges: three edges
all meeting at vertex 0. -/
def hullStar : List (ℕ × ℕ) := [(1, 0), (0, 2), (0, 3)]

/-- Invariant of the delfin expansion state `(current_set, processed,
queue)`, relative to the processed set `P0` that existed before the seed
`seed` started its region: the old processed entries stay processed, the
current set avoids `P0` and is itself processed, every queued edge is an
edge of a current-set member, and every current-set member is the seed or
has its own terminal edge among the edges of a current-set member. -/
def delfinInv (gd : GeometryData) (P0 : List ℕ) (seed : ℕ)
    (s : List ℕ × List ℕ × List Edge) : Prop :=
  (∀ x ∈ P0, x ∈ s.2.1) ∧
  (∀ x ∈ s.1, x ∉ P0) ∧
  (∀ x ∈ s.1, x ∈ s.2.1) ∧
  (∀ e2 ∈ s.2.2, ∃ p ∈ s.1, e2 ∈ triEdges gd p) ∧
  (∀ x ∈ s.1, x = seed ∨ ∃ p ∈ s.1, ∃ nd te,
      gd.triangles.get? x = some nd ∧ nd.terminal_edge = some te ∧
      te ∈ triEdges gd p)

/-! ### Helper lemmas -/

theorem dist2_comm (a b : Pt) : dist2 a b = dist2 b a := by
  unfold dist2; ring

theorem mkEdge_eq_iff {a b c d : ℕ} :
    mkEdge a b = mkEdge c d ↔ (a = c ∧ b = d) ∨ (a = d ∧ b = c) := by
  unfold mkEdge
  rw [Prod.ext_iff]
  constructor
  · intro h
    rcases h with ⟨h1, h2⟩
    simp only at h1 h2
    omega
  · intro h
    rcases h with ⟨rfl, rfl⟩ | ⟨rfl, rfl⟩
    · exact ⟨rfl, rfl⟩
    · simp [Nat.min_comm, Nat.max_comm]

theorem alookup_aset_self {α β : Type} [DecidableEq α]
    (l : List (α × β)) (k : α) (v : β) : alookup (aset l k v) k = some v := by
  induction l with
  | nil => simp [aset, alookup]
  | cons p rest ih =>
    by_cases h : p.1 = k
    · simp [aset, alookup, h]
    · simpa [aset, alookup, h] using ih

theorem alookup_aset_other {α β : Type} [DecidableEq α]
    (l : List (α × β)) (k k' : α) (v : β) (h : k ≠ k') :
    alookup (aset l k v) k' = alookup l k' := by
  induction l with
  | nil => simp [aset, alookup, h]
  | cons p rest ih =>
    by_cases hp : p.1 = k
    · simp [aset, alookup, hp, h]
    · simp [aset, alookup, hp, ih]

theorem alookup_apush_self {α β : Type} [DecidableEq α]
    (l : List (α × List β)) (k : α) (v : β) :
    alookup (apush l k v) k = some ((alookup l k).getD [] ++ [v]) := by
  induction l with
  | nil => simp [apush, alookup]
  | cons p rest ih =>
    by_cases h : p.1 = k
    · simp [apush, alookup, h]
    · simpa [apush, alookup, h] using ih

theorem alookup_apush_other {α β : Type} [DecidableEq α]
    (l : List (α × List β)) (k k' : α) (v : β) (h : k ≠ k') :
    alookup (apush l k v) k' = alookup l k' := by
  induction l with
  | nil => simp [apush, alookup, h]
  | cons p rest ih =>
    by_cases hp : p.1 = k
    · simp [apush, alookup, hp, h]
    · simp [apush, alookup, hp, ih]

theorem mem_apush {α β : Type} [DecidableEq α]
    (l : List (α × List β)) (k k' : α) (v a : β)
    (h : a ∈ (alookup l k').getD []) :
    a ∈ (alookup (apush l k v) k').getD [] := by
  by_cases hk : k = k'
  · subst hk
    rw [alookup_apush_self]
    simp only [Option.getD_some, List.mem_append]
    exact Or.inl h
  · rwa [alookup_apush_other l k k' v hk]

theorem mem_ainsert_self {α β : Type} [DecidableEq α] [DecidableEq β]
    (l : List (α × List β)) (k : α) (v : β) :
    v ∈ (alookup (ainsert l k v) k).getD [] := by
  induction l with
  | nil => simp [ainsert, alookup]
  | cons p rest ih =>
    by_cases h : p.1 = k
    · by_cases hv : v ∈ p.2 <;> simp [ainsert, alookup, h, hv]
    · simpa [ainsert, alookup, h] using ih

theorem mem_ainsert {α β : Type} [DecidableEq α] [DecidableEq β]
    (l : List (α × List β)) (k k' : α) (v a : β)
    (h : a ∈ (alookup l k').getD []) :
    a ∈ (alookup (ainsert l k v) k').getD [] := by
  induction l with
  | nil => simp [alookup] at h
  | cons p rest ih =>
    by_cases hp : p.1 = k
    · by_cases hk : p.1 = k'
      · subst hk
        by_cases hv : v ∈ p.2 <;>
          simp_all [ainsert, alookup]
      · simp_all [ainsert, alookup]
    · by_cases hk : p.1 = k'
      · subst hk
        simp_all [ainsert, alookup]
      · simp_all [ainsert, alookup]

theorem insertDesc_eq_orderedInsert {α : Type} (x : α × ℚ) (l : List (α × ℚ)) :
    insertDesc x l = List.orderedInsert (fun a b => b.2 ≤ a.2) x l := by
  induction l with
  | nil => rfl
  | cons y ys ih =>
    simp only [insertDesc, List.orderedInsert, ih]
    by_cases h : y.2 > x.2
    · rw [if_pos h, if_neg (by exact not_le.mpr h)]
    · rw [if_neg h, if_pos (not_lt.mp h)]

theorem sortDesc_eq_insertionSort {α : Type} (l : List (α × ℚ)) :
    sortDesc l = List.insertionSort (fun a b => b.2 ≤ a.2) l := by
  induction l with
  | nil => rfl
  | cons x xs ih => simp only [sortDesc, List.insertionSort, ih,
      insertDesc_eq_orderedInsert]

theorem sortDesc_perm {α : Type} (l : List (α × ℚ)) :
    List.Perm (sortDesc l) l := by
  rw [sortDesc_eq_insertionSort]
  exact List.perm_insertionSort _ l

theorem sortDesc_sorted {α : Type} (l : List (α × ℚ)) :
    List.Sorted (fun a b : α × ℚ => b.2 ≤ a.2) (sortDesc l) := by
  rw [sortDesc_eq_insertionSort]
  haveI : IsTotal (α × ℚ) (fun a b : α × ℚ => b.2 ≤ a.2) :=
    ⟨fun a b => (le_total b.2 a.2)⟩
  haveI : IsTrans (α × ℚ) (fun a b : α × ℚ => b.2 ≤ a.2) :=
    ⟨fun _ _ _ h1 h2 => le_trans h2 h1⟩
  exact List.sorted_insertionSort _ l

theorem sortDesc_head {α : Type} (l : List (α × ℚ)) :
    (sortDesc l).head? = firstMaxBy l := by
  induction l with
  | nil => rfl
  | cons x xs ih =>
    simp only [sortDesc, firstMaxBy, ← ih]
    cases h : sortDesc xs with
    | nil => simp [insertDesc, h]
    | cons y ys =>
      simp only [h, List.head?_cons, insertDesc]
      by_cases hy : y.2 > x.2
      · simp [hy]
      · simp [hy]

theorem firstMaxBy_max {α : Type} :
    ∀ (l : List (α × ℚ)) (m : α × ℚ), firstMaxBy l = some m →
      ∀ x ∈ l, x.2 ≤ m.2 := by
  intro l
  induction l with
  | nil => intro m h x hx; simp at hx
  | cons y ys ih =>
    intro m h x hx
    rw [List.mem_cons] at hx
    cases hm : firstMaxBy ys with
    | none =>
      simp only [firstMaxBy, hm] at h
      cases h
      rcases hx with rfl | hx
      · exact le_refl _
      · cases ys with
        | nil => simp at hx
        | cons z zs =>
          exfalso
          simp only [firstMaxBy] at hm
          cases hzs : firstMaxBy zs <;> rw [hzs] at hm <;> simp at hm
          split at hm <;> simp at hm
    | some m0 =>
      simp only [firstMaxBy, hm] at h
      by_cases hgt : m0.2 > y.2
      · rw [if_pos hgt] at h
        cases h
        rcases hx with rfl | hx
        · exact le_of_lt hgt
        · exact ih m hm x hx
      · rw [if_neg hgt] at h
        cases h
        rcases hx with rfl | hx
        · exact le_refl _
        · exact le_trans (ih m0 hm x hx) (not_lt.mp hgt)

theorem firstMaxBy_mem {α : Type} :
    ∀ (l : List (α × ℚ)) (m : α × ℚ), firstMaxBy l = some m → m ∈ l := by
  intro l
  induction l with
  | nil => intro m h; simp [firstMaxBy] at h
  | cons y ys ih =>
    intro m h
    cases hm : firstMaxBy ys with
    | none =>
      simp only [firstMaxBy, hm] at h
      cases h
      exact List.mem_cons_self _ _
    | some m0 =>
      simp only [firstMaxBy, hm] at h
      by_cases hgt : m0.2 > y.2
      · rw [if_pos hgt] at h
        cases h
        exact List.mem_cons_of_mem _ (ih m hm)
      · rw [if_neg hgt] at h
        cases h
        exact List.mem_cons_self _ _

theorem getD_set_self (l : List TriangleData) (i : ℕ) (a d : TriangleData)
    (h : i < l.length) : (l.set i a).getD i d = a := by
  induction l generalizing i with
  | nil => simp at h
  | cons x xs ih =>
    cases i with
    | zero => rfl
    | succ n =>
      simp only [List.set_cons_succ, List.getD_cons_succ]
      exact ih n (by simpa using h)

theorem getD_append_replicate (l : List TriangleData) (k j : ℕ)
    (d : TriangleData) :
    (l ++ List.replicate k d).getD j d = l.getD j d := by
  by_cases h : j < l.length
  · rw [List.getD_append _ _ _ _ h]
  · push_neg at h
    rw [List.getD_eq_default _ _ h]
    unfold List.getD
    rw [List.get?_append_right h]
    cases hk : (List.replicate k d).get? (j - l.length) with
    | none => rfl
    | some x =>
      have hx := List.get?_mem hk
      rw [List.eq_of_mem_replicate hx]
      rfl

theorem ewl3_consistent (points : List Pt) (a b c : ℕ) :
    ∀ x ∈ [(mkEdge a b, dist2 (points.getD a (0, 0)) (points.getD b (0, 0))),
           (mkEdge b c, dist2 (points.getD b (0, 0)) (points.getD c (0, 0))),
           (mkEdge c a, dist2 (points.getD c (0, 0)) (points.getD a (0, 0)))],
    ∀ y ∈ [(mkEdge a b, dist2 (points.getD a (0, 0)) (points.getD b (0, 0))),
           (mkEdge b c, dist2 (points.getD b (0, 0)) (points.getD c (0, 0))),
           (mkEdge c a, dist2 (points.getD c (0, 0)) (points.getD a (0, 0)))],
    x.1 = y.1 → x.2 = y.2 := by
  intro x hx y hy hxy
  simp only [List.mem_cons, List.mem_singleton, List.not_mem_nil, or_false] at hx hy
  rcases hx with rfl | rfl | rfl <;> rcases hy with rfl | rfl | rfl <;>
    simp only at hxy ⊢ <;>
    first
      | rfl
      | (rcases mkEdge_eq_iff.mp hxy with ⟨h1, h2⟩ | ⟨h1, h2⟩ <;> subst_vars <;>
          simp [dist2_comm])

theorem edgesWithLengths_consistent (points : List Pt) (tri : List ℕ) :
    ∀ x ∈ edgesWithLengths points tri, ∀ y ∈ edgesWithLengths points tri,
      x.1 = y.1 → x.2 = y.2 := by
  have := ewl3_consistent points (tri.getD 0 0) (tri.getD 1 0) (tri.getD 2 0)
  simpa [edgesWithLengths] using this

theorem foldFull_triangles (i : ℕ) :
    ∀ (l : List (Edge × ℚ)) (g : GeometryData),
      (l.foldl (edgeUpdFull i) g).triangles = g.triangles := by
  intro l
  induction l with
  | nil => intro g; rfl
  | cons x xs ih => intro g; simpa [edgeUpdFull] using ih _

theorem foldLean_triangles (i : ℕ) :
    ∀ (l : List (Edge × ℚ)) (g : GeometryData),
      (l.foldl (edgeUpdSlim i) g).triangles = g.triangles := by
  intro l
  induction l with
  | nil => intro g; rfl
  | cons x xs ih => intro g; simpa [edgeUpdSlim] using ih _

theorem foldLean_vconn (i : ℕ) :
    ∀ (l : List (Edge × ℚ)) (g : GeometryData),
      (l.foldl (edgeUpdSlim i) g).vertex_connections = g.vertex_connections := by
  intro l
  induction l with
  | nil => intro g; rfl
  | cons x xs ih => intro g; simpa [edgeUpdSlim] using ih _

theorem foldFull_len_preserve (i : ℕ) :
    ∀ (l : List (Edge × ℚ)) (g : GeometryData) (k : Edge) (v : ℚ),
      (∀ y ∈ l, y.1 = k → y.2 = v) →
      alookup g.edge_lengths k = some v →
      alookup (l.foldl (edgeUpdFull i) g).edge_lengths k = some v := by
  intro l
  induction l with
  | nil => intro g k v _ h; exact h
  | cons x xs ih =>
    intro g k v hc h
    simp only [List.foldl_cons]
    apply ih _ k v (fun y hy => hc y (List.mem_cons_of_mem _ hy))
    show alookup (aset g.edge_lengths x.1 x.2) k = some v
    by_cases hk : x.1 = k
    · rw [hk, alookup_aset_self]
      rw [hc x (List.mem_cons_self _ _) hk]
    · rw [alookup_aset_other _ _ _ _ hk]
      exact h

theorem foldLean_len_preserve (i : ℕ) :
    ∀ (l : List (Edge × ℚ)) (g : GeometryData) (k : Edge) (v : ℚ),
      (∀ y ∈ l, y.1 = k → y.2 = v) →
      alookup g.edge_lengths k = some v →
      alookup (l.foldl (edgeUpdSlim i) g).edge_lengths k = some v := by
  intro l
  induction l with
  | nil => intro g k v _ h; exact h
  | cons x xs ih =>
    intro g k v hc h
    simp only [List.foldl_cons]
    apply ih _ k v (fun y hy => hc y (List.mem_cons_of_mem _ hy))
    show alookup (aset g.edge_lengths x.1 x.2) k = some v
    by_cases hk : x.1 = k
    · rw [hk, alookup_aset_self]
      rw [hc x (List.mem_cons_self _ _) hk]
    · rw [alookup_aset_other _ _ _ _ hk]
      exact h

theorem foldFull_len_mem (i : ℕ) :
    ∀ (l : List (Edge × ℚ)) (g : GeometryData) (x : Edge × ℚ), x ∈ l →
      (∀ y ∈ l, ∀ z ∈ l, y.1 = z.1 → y.2 = z.2) →
      alookup (l.foldl (edgeUpdFull i) g).edge_lengths x.1 = some x.2 := by
  intro l
  induction l with
  | nil => intro g x hx; simp at hx
  | cons w xs ih =>
    intro g x hx hc
    rw [List.mem_cons] at hx
    simp only [List.foldl_cons]
    rcases hx with rfl | hx
    · apply foldFull_len_preserve
      · intro y hy h1
        exact hc y (List.mem_cons_of_mem _ hy) x (List.mem_cons_self _ _) h1
      · show alookup (aset g.edge_lengths x.1 x.2) x.1 = some x.2
        exact alookup_aset_self _ _ _
    · exact ih _ x hx (fun y hy z hz =>
        hc y (List.mem_cons_of_mem _ hy) z (List.mem_cons_of_mem _ hz))

theorem foldLean_len_mem (i : ℕ) :
    ∀ (l : List (Edge × ℚ)) (g : GeometryData) (x : Edge × ℚ), x ∈ l →
      (∀ y ∈ l, ∀ z ∈ l, y.1 = z.1 → y.2 = z.2) →
      alookup (l.foldl (edgeUpdSlim i) g).edge_lengths x.1 = some x.2 := by
  intro l
  induction l with
  | nil => intro g x hx; simp at hx
  | cons w xs ih =>
    intro g x hx hc
    rw [List.mem_cons] at hx
    simp only [List.foldl_cons]
    rcases hx with rfl | hx
    · apply foldLean_len_preserve
      · intro y hy h1
        exact hc y (List.mem_cons_of_mem _ hy) x (List.mem_cons_self _ _) h1
      · show alookup (aset g.edge_lengths x.1 x.2) x.1 = some x.2
        exact alookup_aset_self _ _ _
    · exact ih _ x hx (fun y hy z hz =>
        hc y (List.mem_cons_of_mem _ hy) z (List.mem_cons_of_mem _ hz))

theorem foldFull_tri_preserve (i : ℕ) :
    ∀ (l : List (Edge × ℚ)) (g : GeometryData) (k : Edge) (a : ℕ),
      a ∈ (alookup g.edge_to_triangles k).getD [] →
      a ∈ (alookup (l.foldl (edgeUpdFull i) g).edge_to_triangles k).getD [] := by
  intro l
  induction l with
  | nil => intro g k a h; exact h
  | cons x xs ih =>
    intro g k a h
    simp only [List.foldl_cons]
    exact ih _ k a (mem_apush _ _ _ _ _ h)

theorem foldLean_tri_preserve (i : ℕ) :
    ∀ (l : List (Edge × ℚ)) (g : GeometryData) (k : Edge) (a : ℕ),
      a ∈ (alookup g.edge_to_triangles k).getD [] →
      a ∈ (alookup (l.foldl (edgeUpdSlim i) g).edge_to_triangles k).getD [] := by
  intro l
  induction l with
  | nil => intro g k a h; exact h
  | cons x xs ih =>
    intro g k a h
    simp only [List.foldl_cons]
    exact ih _ k a (mem_apush _ _ _ _ _ h)

theorem foldFull_tri_mem (i : ℕ) :
    ∀ (l : List (Edge × ℚ)) (g : GeometryData) (x : Edge × ℚ), x ∈ l →
      i ∈ (alookup (l.foldl (edgeUpdFull i) g).edge_to_triangles x.1).getD [] := by
  intro l
  induction l with
  | nil => intro g x hx; simp at hx
  | cons w xs ih =>
    intro g x hx
    rw [List.mem_cons] at hx
    simp only [List.foldl_cons]
    rcases hx with rfl | hx
    · apply foldFull_tri_preserve
      show i ∈ (alookup (apush g.edge_to_triangles x.1 i) x.1).getD []
      rw [alookup_apush_self]
      simp
    · exact ih _ x hx

theorem foldLean_tri_mem (i : ℕ) :
    ∀ (l : List (Edge × ℚ)) (g : GeometryData) (x : Edge × ℚ), x ∈ l →
      i ∈ (alookup (l.foldl (edgeUpdSlim i) g).edge_to_triangles x.1).getD [] := by
  intro l
  induction l with
  | nil => intro g x hx; simp at hx
  | cons w xs ih =>
    intro g x hx
    rw [List.mem_cons] at hx
    simp only [List.foldl_cons]
    rcases hx with rfl | hx
    · apply foldLean_tri_preserve
      show i ∈ (alookup (apush g.edge_to_triangles x.1 i) x.1).getD []
      rw [alookup_apush_self]
      simp
    · exact ih _ x hx

theorem foldFull_vconn_preserve (i : ℕ) :
    ∀ (l : List (Edge × ℚ)) (g : GeometryData) (k a : ℕ),
      a ∈ (alookup g.vertex_connections k).getD [] →
      a ∈ (alookup (l.foldl (edgeUpdFull i) g).vertex_connections k).getD [] := by
  intro l
  induction l with
  | nil => intro g k a h; exact h
  | cons x xs ih =>
    intro g k a h
    simp only [List.foldl_cons]
    exact ih _ k a (mem_ainsert _ _ _ _ _ (mem_ainsert _ _ _ _ _ h))

theorem foldFull_vconn_mem (i : ℕ) :
    ∀ (l : List (Edge × ℚ)) (g : GeometryData) (x : Edge × ℚ), x ∈ l →
      x.1.2 ∈ (alookup (l.foldl (edgeUpdFull i) g).vertex_connections x.1.1).getD [] ∧
      x.1.1 ∈ (alookup (l.foldl (edgeUpdFull i) g).vertex_connections x.1.2).getD [] := by
  intro l
  induction l with
  | nil => intro g x hx; simp at hx
  | cons w xs ih =>
    intro g x hx
    rw [List.mem_cons] at hx
    simp only [List.foldl_cons]
    rcases hx with rfl | hx
    · constructor
      · apply foldFull_vconn_preserve
        show x.1.2 ∈ (alookup (ainsert (ainsert g.vertex_connections x.1.1 x.1.2)
          x.1.2 x.1.1) x.1.1).getD []
        exact mem_ainsert _ _ _ _ _ (mem_ainsert_self _ _ _)
      · apply foldFull_vconn_preserve
        exact mem_ainsert_self _ _ _
    · exact ih _ x hx

theorem firstMaxBy_cons_ne_none {α : Type} (x : α × ℚ) (xs : List (α × ℚ)) :
    firstMaxBy (x :: xs) ≠ none := by
  intro h
  cases hm : firstMaxBy xs with
  | none =>
    simp only [firstMaxBy, hm] at h
    exact Option.noConfusion h
  | some m0 =>
    simp only [firstMaxBy, hm] at h
    by_cases hgt : m0.2 > x.2
    · rw [if_pos hgt] at h
      exact Option.noConfusion h
    · rw [if_neg hgt] at h
      exact Option.noConfusion h

theorem addTriangle_edge_lengths (gd : GeometryData) (i : ℕ) (points : List Pt)
    (tri : List ℕ) (ty : ℕ) :
    (addTriangle gd i points tri ty).edge_lengths =
      (if ty = 0 ∨ ty = 1 then
        (sortDesc (edgesWithLengths points tri)).foldl (edgeUpdFull i) gd
      else (sortDesc (edgesWithLengths points tri)).foldl (edgeUpdSlim i) gd).edge_lengths := by
  rfl

theorem addTriangle_edge_to_triangles (gd : GeometryData) (i : ℕ)
    (points : List Pt) (tri : List ℕ) (ty : ℕ) :
    (addTriangle gd i points tri ty).edge_to_triangles =
      (if ty = 0 ∨ ty = 1 then
        (sortDesc (edgesWithLengths points tri)).foldl (edgeUpdFull i) gd
      else (sortDesc (edgesWithLengths points tri)).foldl (edgeUpdSlim i) gd).edge_to_triangles := by
  rfl

theorem addTriangle_vertex_connections (gd : GeometryData) (i : ℕ)
    (points : List Pt) (tri : List ℕ) (ty : ℕ) :
    (addTriangle gd i points tri ty).vertex_connections =
      (if ty = 0 ∨ ty = 1 then
        (sortDesc (edgesWithLengths points tri)).foldl (edgeUpdFull i) gd
      else (sortDesc (edgesWithLengths points tri)).foldl (edgeUpdSlim i) gd).vertex_connections := by
  rfl

theorem addTriangle_record (gd : GeometryData) (i : ℕ) (points : List Pt)
    (tri : List ℕ) (ty : ℕ) (h : ty = 0 ∨ ty = 2) :
    (addTriangle gd i points tri ty).triangles.getD i TriangleData.defaultRec =
      { index := i, area := some (shoelace points tri),
        terminal_edge :=
          (sortDesc (edgesWithLengths points tri)).head?.map Prod.fst,
        vertices := sortAsc [tri.getD 0 0, tri.getD 1 0, tri.getD 2 0] } := by
  unfold addTriangle
  simp only [if_pos h]
  set g1 := (if ty = 0 ∨ ty = 1 then
      (sortDesc (edgesWithLengths points tri)).foldl (edgeUpdFull i) gd
    else (sortDesc (edgesWithLengths points tri)).foldl (edgeUpdSlim i) gd)
    with hg1
  by_cases hlen : g1.triangles.length ≤ i
  · rw [if_pos hlen]
    apply getD_set_self
    simp only [List.length_append, List.length_replicate]
    omega
  · rw [if_neg hlen]
    exact getD_set_self _ _ _ _ (lt_of_not_le hlen)

theorem addTriangle_no_record (gd : GeometryData) (i : ℕ) (points : List Pt)
    (tri : List ℕ) (ty : ℕ) (h : ¬(ty = 0 ∨ ty = 2)) (j : ℕ) :
    (addTriangle gd i points tri ty).triangles.getD j TriangleData.defaultRec =
      gd.triangles.getD j TriangleData.defaultRec := by
  unfold addTriangle
  simp only [if_neg h]
  by_cases hf : ty = 0 ∨ ty = 1
  · simp only [if_pos hf, foldFull_triangles]
    by_cases hlen : gd.triangles.length ≤ i
    · rw [if_pos hlen]
      exact getD_append_replicate _ _ _ _
    · rw [if_neg hlen]
  · simp only [if_neg hf, foldLean_triangles]
    by_cases hlen : gd.triangles.length ≤ i
    · rw [if_pos hlen]
      exact getD_append_replicate _ _ _ _
    · rw [if_neg hlen]

/-- C3: in a record-populating build mode the stored `terminal_edge` is the
first-listed edge among those of maximal length in the enumeration order
v0v1, v1v2, v2v0, and its length is at least those of the other two
edges. -/
theorem c3_terminal_edge_longest (gd : GeometryData) (i : ℕ)
    (points : List Pt) (tri : List ℕ) (ty : ℕ) (h : ty = 0 ∨ ty = 2) :
    ∃ m : Edge × ℚ,
      firstMaxBy (edgesWithLengths points tri) = some m ∧
      ((addTriangle gd i points tri ty).triangles.getD i
          TriangleData.defaultRec).terminal_edge = some m.1 ∧
      ∀ x ∈ edgesWithLengths points tri, x.2 ≤ m.2 := by
  cases hfm : firstMaxBy (edgesWithLengths points tri) with
  | none =>
    exfalso
    exact firstMaxBy_cons_ne_none _ _ (by simpa [edgesWithLengths] using hfm)
  | some m =>
    refine ⟨m, rfl, ?_, firstMaxBy_max _ m hfm⟩
    rw [addTriangle_record gd i points tri ty h]
    show ((sortDesc (edgesWithLengths points tri)).head?.map Prod.fst) = some m.1
    rw [sortDesc_head, hfm]
    rfl

/-- Witness for C3 at a concrete triangle: for the unit right triangle the
hypotenuse (1, 2) is the terminal edge. -/
theorem c3_terminal_edge_longest_witness :
    ∃ m : Edge × ℚ,
      firstMaxBy (edgesWithLengths ptsOne [0, 1, 2]) = some m ∧
      ((addTriangle GeometryData.emptyGD 0 ptsOne [0, 1, 2] 0).triangles.getD 0
          TriangleData.defaultRec).terminal_edge = some m.1 ∧
      ∀ x ∈ edgesWithLengths ptsOne [0, 1, 2], x.2 ≤ m.2 :=
  c3_terminal_edge_longest GeometryData.emptyGD 0 ptsOne [0, 1, 2] 0 (Or.inl rfl)

/-- C4: in every build mode 0, 1, 2 add_triangle records a length and the
triangle index for each of the triangle's three edges; mode 0 additionally
writes both the triangle record (vertices, area, terminal edge) and the
symmetric vertex connections, mode 1 writes the vertex connections but
leaves every triangle record at its previous (default) value, and mode 2
writes the triangle record but leaves vertex_connections untouched. -/
theorem c4_build_modes (gd : GeometryData) (i : ℕ) (points : List Pt)
    (tri : List ℕ) (ty : ℕ) (h : ty = 0 ∨ ty = 1 ∨ ty = 2) :
    (∀ x ∈ edgesWithLengths points tri,
      alookup (addTriangle gd i points tri ty).edge_lengths x.1 = some x.2 ∧
      i ∈ (alookup (addTriangle gd i points tri ty).edge_to_triangles x.1).getD []) ∧
    (ty = 0 ∨ ty = 2 →
      (addTriangle gd i points tri ty).triangles.getD i TriangleData.defaultRec =
        { index := i, area := some (shoelace points tri),
          terminal_edge := (firstMaxBy (edgesWithLengths points tri)).map Prod.fst,
          vertices := sortAsc [tri.getD 0 0, tri.getD 1 0, tri.getD 2 0] }) ∧
    (ty = 1 → ∀ j,
      (addTriangle gd i points tri ty).triangles.getD j TriangleData.defaultRec =
        gd.triangles.getD j TriangleData.defaultRec) ∧
    (ty = 0 ∨ ty = 1 → ∀ x ∈ edgesWithLengths points tri,
      x.1.2 ∈ (alookup (addTriangle gd i points tri ty).vertex_connections x.1.1).getD [] ∧
      x.1.1 ∈ (alookup (addTriangle gd i points tri ty).vertex_connections x.1.2).getD []) ∧
    (ty = 2 →
      (addTriangle gd i points tri ty).vertex_connections = gd.vertex_connections) := by
  have hperm := sortDesc_perm (edgesWithLengths points tri)
  have hcons : ∀ y ∈ sortDesc (edgesWithLengths points tri),
      ∀ z ∈ sortDesc (edgesWithLengths points tri), y.1 = z.1 → y.2 = z.2 :=
    fun y hy z hz =>
      edgesWithLengths_consistent points tri y (hperm.subset hy) z (hperm.subset hz)
  refine ⟨?_, ?_, ?_, ?_, ?_⟩
  · intro x hx
    have hx' : x ∈ sortDesc (edgesWithLengths points tri) := hperm.mem_iff.mpr hx
    rw [addTriangle_edge_lengths, addTriangle_edge_to_triangles]
    by_cases hf : ty = 0 ∨ ty = 1
    · rw [if_pos hf]
      exact ⟨foldFull_len_mem i _ gd x hx' hcons, foldFull_tri_mem i _ gd x hx'⟩
    · rw [if_neg hf]
      exact ⟨foldLean_len_mem i _ gd x hx' hcons, foldLean_tri_mem i _ gd x hx'⟩
  · intro h02
    rw [addTriangle_record gd i points tri ty h02, sortDesc_head]
  · intro h1 j
    subst h1
    exact addTriangle_no_record gd i points tri 1 (by norm_num) j
  · intro h01 x hx
    have hx' : x ∈ sortDesc (edgesWithLengths points tri) := hperm.mem_iff.mpr hx
    rw [addTriangle_vertex_connections, if_pos h01]
    exact foldFull_vconn_mem i _ gd x hx'
  · intro h2
    subst h2
    rw [addTriangle_vertex_connections, if_neg (by norm_num), foldLean_vconn]

/-- Witness for C4 at a concrete triangle in build mode 0. -/
theorem c4_build_modes_witness :
    (∀ x ∈ edgesWithLengths ptsOne [0, 1, 2],
      alookup (addTriangle GeometryData.emptyGD 0 ptsOne [0, 1, 2] 0).edge_lengths x.1
        = some x.2 ∧
      0 ∈ (alookup (addTriangle GeometryData.emptyGD 0 ptsOne [0, 1, 2] 0).edge_to_triangles
        x.1).getD []) ∧
    ((0 : ℕ) = 0 ∨ (0 : ℕ) = 2 →
      (addTriangle GeometryData.emptyGD 0 ptsOne [0, 1, 2] 0).triangles.getD 0
          TriangleData.defaultRec =
        { index := 0, area := some (shoelace ptsOne [0, 1, 2]),
          terminal_edge := (firstMaxBy (edgesWithLengths ptsOne [0, 1, 2])).map Prod.fst,
          vertices := sortAsc [[0, 1, 2].getD 0 0, [0, 1, 2].getD 1 0, [0, 1, 2].getD 2 0] }) ∧
    ((0 : ℕ) = 1 → ∀ j,
      (addTriangle GeometryData.emptyGD 0 ptsOne [0, 1, 2] 0).triangles.getD j
          TriangleData.defaultRec =
        GeometryData.emptyGD.triangles.getD j TriangleData.defaultRec) ∧
    ((0 : ℕ) = 0 ∨ (0 : ℕ) = 1 → ∀ x ∈ edgesWithLengths ptsOne [0, 1, 2],
      x.1.2 ∈ (alookup (addTriangle GeometryData.emptyGD 0 ptsOne [0, 1, 2] 0).vertex_connections
        x.1.1).getD [] ∧
      x.1.1 ∈ (alookup (addTriangle GeometryData.emptyGD 0 ptsOne [0, 1, 2] 0).vertex_connections
        x.1.2).getD []) ∧
    ((0 : ℕ) = 2 →
      (addTriangle GeometryData.emptyGD 0 ptsOne [0, 1, 2] 0).vertex_connections =
        GeometryData.emptyGD.vertex_connections) :=
  c4_build_modes GeometryData.emptyGD 0 ptsOne [0, 1, 2] 0 (Or.inl rfl)

theorem addTriangle_no_record_append (gd : GeometryData) (i : ℕ)
    (points : List Pt) (tri : List ℕ) (ty : ℕ) (h2 : ¬(ty = 0 ∨ ty = 2)) :
    (addTriangle gd i points tri ty).triangles =
      gd.triangles ++
        List.replicate (i + 1 - gd.triangles.length) TriangleData.defaultRec := by
  unfold addTriangle
  simp only [if_neg h2]
  have hfin : ∀ tr : List TriangleData, tr = gd.triangles →
      (if tr.length ≤ i then
        tr ++ List.replicate (i + 1 - tr.length) TriangleData.defaultRec
      else tr) =
      gd.triangles ++
        List.replicate (i + 1 - gd.triangles.length) TriangleData.defaultRec := by
    intro tr htr
    subst htr
    by_cases hlen : gd.triangles.length ≤ i
    · rw [if_pos hlen]
    · rw [if_neg hlen]
      have hz : i + 1 - gd.triangles.length = 0 := by omega
      rw [hz]
      simp
  by_cases hf : ty = 0 ∨ ty = 1
  · simp only [if_pos hf]
    exact hfin _ (foldFull_triangles i _ gd)
  · simp only [if_neg hf]
    exact hfin _ (foldLean_triangles i _ gd)

theorem preprocess_mode1_terminal_none (pts : List Pt) (tris : List ℕ) :
    ∀ t ∈ (preprocess pts tris 1).triangles, t.terminal_edge = none := by
  unfold preprocess
  generalize (chunks3 tris).enum = l
  suffices h : ∀ (l : List (ℕ × List ℕ)) (g : GeometryData),
      (∀ t ∈ g.triangles, t.terminal_edge = none) →
      ∀ t ∈ (l.foldl (fun gd it => addTriangle gd it.1 pts it.2 1) g).triangles,
        t.terminal_edge = none by
    exact h l GeometryData.emptyGD
      (by intro t ht; simp [GeometryData.emptyGD] at ht)
  intro l
  induction l with
  | nil => intro g hg; exact hg
  | cons x xs ih =>
    intro g hg
    simp only [List.foldl_cons]
    apply ih
    intro t ht
    rw [addTriangle_no_record_append _ _ _ _ 1 (by norm_num)] at ht
    rcases List.mem_append.mp ht with h1 | h1
    · exact hg t h1
    · rw [List.eq_of_mem_replicate h1]
      rfl

/-- C10: a graph built with mode 1 carries only default triangle records
(terminal edge absent), so delfin finds no seed and returns the empty list,
for every threshold pair. -/
theorem c10_mode1_delfin_empty (pts : List Pt) (tris : List ℕ) (mA mD : ℚ) :
    delfin (preprocess pts tris 1) mA mD = [] := by
  have hnone := preprocess_mode1_terminal_none pts tris
  have hseeds : delfinSeeds (preprocess pts tris 1) mD = [] := by
    unfold delfinSeeds
    have hfm : (preprocess pts tris 1).triangles.filterMap (fun t =>
        t.terminal_edge.bind (fun e =>
          (alookup (preprocess pts tris 1).edge_lengths e).map
            (fun l => (t.index, l)))) = [] := by
      rw [List.filterMap_eq_nil_iff]
      intro t ht
      rw [hnone t ht]
      rfl
    rw [hfm]
    rfl
  unfold delfin
  rw [hseeds]
  rfl

theorem dtscanExpand_spec (gd : GeometryData) (maxC : ℚ) :
    ∀ (fuel : ℕ) (q vis cl : List ℕ),
      (∀ x ∈ cl, x ∈ vis) → cl.Nodup →
      (∀ x ∈ vis, x ∈ (dtscanExpand gd maxC fuel q vis cl).2) ∧
      (∀ x ∈ (dtscanExpand gd maxC fuel q vis cl).1,
        x ∈ (dtscanExpand gd maxC fuel q vis cl).2) ∧
      (dtscanExpand gd maxC fuel q vis cl).1.Nodup ∧
      (∀ x ∈ (dtscanExpand gd maxC fuel q vis cl).1, x ∈ cl ∨ x ∉ vis) ∧
      (∃ t, (dtscanExpand gd maxC fuel q vis cl).1 = cl ++ t) := by
  intro fuel
  induction fuel with
  | zero =>
    intro q vis cl hsub hnd
    exact ⟨fun x hx => hx, hsub, hnd, fun x hx => Or.inl hx, [], by simp [dtscanExpand]⟩
  | succ f ih =>
    intro q vis cl hsub hnd
    cases q with
    | nil =>
      exact ⟨fun x hx => hx, hsub, hnd, fun x hx => Or.inl hx, [], by simp [dtscanExpand]⟩
    | cons cur rest =>
      by_cases hv : cur ∈ vis
      · simp only [dtscanExpand, if_pos hv]
        exact ih rest vis cl hsub hnd
      · simp only [dtscanExpand, if_neg hv]
        have hsub2 : ∀ x ∈ cl ++ [cur], x ∈ cur :: vis := by
          intro x hx
          rcases List.mem_append.mp hx with hx | hx
          · exact List.mem_cons_of_mem _ (hsub x hx)
          · rw [List.mem_singleton.mp hx]; exact List.mem_cons_self _ _
        have hnd2 : (cl ++ [cur]).Nodup := by
          rw [List.nodup_append]
          exact ⟨hnd, List.nodup_singleton _,
            fun x hx => by
              simp only [List.mem_singleton]
              intro hcur
              exact hv (hcur ▸ hsub x hx)⟩
        obtain ⟨h1, h2, h3, h4, t, ht⟩ := ih _ (cur :: vis) (cl ++ [cur]) hsub2 hnd2
        refine ⟨fun x hx => h1 x (List.mem_cons_of_mem _ hx), h2, h3, ?_, ?_⟩
        · intro x hx
          rcases h4 x hx with hx2 | hx2
          · rcases List.mem_append.mp hx2 with hx3 | hx3
            · exact Or.inl hx3
            · rw [List.mem_singleton.mp hx3]; exact Or.inr hv
          · exact Or.inr (fun hc => hx2 (List.mem_cons_of_mem _ hc))
        · exact ⟨cur :: t, by rw [ht]; simp⟩

theorem dtscanExpand_growth (gd : GeometryData) (maxC : ℚ) (seed : ℕ) :
    ∀ (fuel : ℕ) (q vis cl : List ℕ),
      (∀ x ∈ q, x = seed ∨ ∃ p ∈ cl, closeNbr gd maxC p x) →
      (∀ x ∈ cl, x = seed ∨ ∃ p ∈ cl, closeNbr gd maxC p x) →
      ∀ x ∈ (dtscanExpand gd maxC fuel q vis cl).1,
        x = seed ∨ ∃ p ∈ (dtscanExpand gd maxC fuel q vis cl).1,
          closeNbr gd maxC p x := by
  intro fuel
  induction fuel with
  | zero =>
    intro q vis cl _ hcl x hx
    rcases hcl x hx with h | ⟨p, hp, hc⟩
    · exact Or.inl h
    · exact Or.inr ⟨p, hp, hc⟩
  | succ f ih =>
    intro q vis cl hq hcl
    cases q with
    | nil =>
      intro x hx
      rcases hcl x hx with h | ⟨p, hp, hc⟩
      · exact Or.inl h
      · exact Or.inr ⟨p, hp, hc⟩
    | cons cur rest =>
      by_cases hv : cur ∈ vis
      · simp only [dtscanExpand, if_pos hv]
        exact ih rest vis cl (fun x hx => hq x (List.mem_cons_of_mem _ hx)) hcl
      · simp only [dtscanExpand, if_neg hv]
        apply ih
        · intro x hx
          rcases List.mem_append.mp hx with hx | hx
          · -- pushed close neighbor of cur
            rw [List.mem_filter] at hx
            right
            refine ⟨cur, List.mem_append.mpr (Or.inr (List.mem_singleton_self _)), ?_⟩
            obtain ⟨hmem, hcond⟩ := hx
            cases hlk : alookup gd.edge_lengths (mkEdge cur x) with
            | none => rw [hlk] at hcond; simp at hcond
            | some l =>
              rw [hlk] at hcond
              simp only [Bool.and_eq_true, decide_eq_true_eq] at hcond
              exact ⟨hmem, l, hlk, hcond.1⟩
          · -- remaining queue entry
            rcases hq x (List.mem_cons_of_mem _ hx) with h | ⟨p, hp, hc⟩
            · exact Or.inl h
            · exact Or.inr ⟨p, List.mem_append.mpr (Or.inl hp), hc⟩
        · intro x hx
          rcases List.mem_append.mp hx with hx | hx
          · rcases hcl x hx with h | ⟨p, hp, hc⟩
            · exact Or.inl h
            · exact Or.inr ⟨p, List.mem_append.mpr (Or.inl hp), hc⟩
          · rw [List.mem_singleton.mp hx]
            rcases hq cur (List.mem_cons_self _ _) with h | ⟨p, hp, hc⟩
            · exact Or.inl h
            · exact Or.inr ⟨p, List.mem_append.mpr (Or.inl hp), hc⟩

theorem dtscanExpand_head (gd : GeometryData) (maxC : ℚ) (fuel : ℕ)
    (vis : List ℕ) (seed : ℕ) (hf : fuel ≠ 0) (h : seed ∉ vis) :
    ∃ t, (dtscanExpand gd maxC fuel [seed] vis []).1 = seed :: t := by
  obtain ⟨f, rfl⟩ := Nat.exists_eq_succ_of_ne_zero hf
  simp only [dtscanExpand, if_neg h]
  have hsub : ∀ x ∈ ([] : List ℕ) ++ [seed], x ∈ seed :: vis := by
    intro x hx
    simp only [List.nil_append, List.mem_singleton] at hx
    rw [hx]
    exact List.mem_cons_self _ _
  obtain ⟨-, -, -, -, t, ht⟩ :=
    dtscanExpand_spec gd maxC f _ (seed :: vis) ([] ++ [seed]) hsub
      (by simp)
  refine ⟨t, ?_⟩
  rw [ht]
  simp

theorem dtscanStep_inv (gd : GeometryData) (mp : ℕ) (maxC : ℚ)
    (acc : List (List ℕ) × List ℕ) (e : ℕ × List ℕ)
    (hin : e ∈ gd.vertex_connections)
    (h1 : ∀ C ∈ acc.1, C.Nodup ∧ ∀ x ∈ C, x ∈ acc.2)
    (h2 : List.Pairwise (fun a b => ∀ x ∈ a, x ∉ b) acc.1)
    (h3 : ∀ C ∈ acc.1, ∃ v nbrs, (v, nbrs) ∈ gd.vertex_connections ∧
        C.head? = some v ∧ isCore gd mp maxC v nbrs = true ∧
        ∀ x ∈ C, x = v ∨ ∃ p ∈ C, closeNbr gd maxC p x) :
    (∀ C ∈ (dtscanStep gd mp maxC acc e).1, C.Nodup ∧
        ∀ x ∈ C, x ∈ (dtscanStep gd mp maxC acc e).2) ∧
    List.Pairwise (fun a b => ∀ x ∈ a, x ∉ b) (dtscanStep gd mp maxC acc e).1 ∧
    (∀ C ∈ (dtscanStep gd mp maxC acc e).1, ∃ v nbrs,
        (v, nbrs) ∈ gd.vertex_connections ∧
        C.head? = some v ∧ isCore gd mp maxC v nbrs = true ∧
        ∀ x ∈ C, x = v ∨ ∃ p ∈ C, closeNbr gd maxC p x) := by
  unfold dtscanStep
  by_cases hv : e.1 ∈ acc.2
  · simp only [if_pos hv]
    exact ⟨h1, h2, h3⟩
  · simp only [if_neg hv]
    by_cases hc : isCore gd mp maxC e.1 e.2 = true
    · simp only [if_pos hc]
      obtain ⟨hvis, hclvis, hclnd, hfresh, -⟩ :=
        dtscanExpand_spec gd maxC (dtscanFuel gd) [e.1] acc.2 []
          (by intro x hx; simp at hx) List.nodup_nil
      set r := dtscanExpand gd maxC (dtscanFuel gd) [e.1] acc.2 [] with hr
      by_cases hemp : r.1.isEmpty
      · simp only [if_pos hemp]
        refine ⟨?_, h2, h3⟩
        intro C hC
        exact ⟨(h1 C hC).1, fun x hx => hvis x ((h1 C hC).2 x hx)⟩
      · simp only [if_neg hemp]
        have hfresh2 : ∀ x ∈ r.1, x ∉ acc.2 := by
          intro x hx
          rcases hfresh x hx with h | h
          · simp at h
          · exact h
        refine ⟨?_, ?_, ?_⟩
        · intro C hC
          rcases List.mem_append.mp hC with hC | hC
          · exact ⟨(h1 C hC).1, fun x hx => hvis x ((h1 C hC).2 x hx)⟩
          · rw [List.mem_singleton.mp hC]
            exact ⟨hclnd, hclvis⟩
        · rw [List.pairwise_append]
          refine ⟨h2, List.pairwise_singleton _ _, ?_⟩
          intro a ha b hb x hx
          rw [List.mem_singleton.mp hb]
          intro hxr
          exact hfresh2 x hxr ((h1 a ha).2 x hx)
        · intro C hC
          rcases List.mem_append.mp hC with hC | hC
          · exact h3 C hC
          · rw [List.mem_singleton.mp hC]
            refine ⟨e.1, e.2, by simpa using hin, ?_, hc, ?_⟩
            · obtain ⟨t, ht⟩ := dtscanExpand_head gd maxC (dtscanFuel gd) acc.2
                e.1 (by unfold dtscanFuel; omega) hv
              rw [← hr] at ht
              rw [ht]
              rfl
            · exact dtscanExpand_growth gd maxC e.1 (dtscanFuel gd) [e.1] acc.2 []
                (by intro x hx; exact Or.inl (List.mem_singleton.mp hx))
                (by intro x hx; simp at hx)
    · simp only [if_neg hc]
      exact ⟨h1, h2, h3⟩

theorem dtscanFold_inv (gd : GeometryData) (mp : ℕ) (maxC : ℚ) :
    ∀ (entries : List (ℕ × List ℕ)) (acc : List (List ℕ) × List ℕ),
      (∀ e ∈ entries, e ∈ gd.vertex_connections) →
      (∀ C ∈ acc.1, C.Nodup ∧ ∀ x ∈ C, x ∈ acc.2) →
      List.Pairwise (fun a b => ∀ x ∈ a, x ∉ b) acc.1 →
      (∀ C ∈ acc.1, ∃ v nbrs, (v, nbrs) ∈ gd.vertex_connections ∧
          C.head? = some v ∧ isCore gd mp maxC v nbrs = true ∧
          ∀ x ∈ C, x = v ∨ ∃ p ∈ C, closeNbr gd maxC p x) →
      (∀ C ∈ (entries.foldl (dtscanStep gd mp maxC) acc).1, C.Nodup ∧
          ∀ x ∈ C, x ∈ (entries.foldl (dtscanStep gd mp maxC) acc).2) ∧
      List.Pairwise (fun a b => ∀ x ∈ a, x ∉ b)
        (entries.foldl (dtscanStep gd mp maxC) acc).1 ∧
      (∀ C ∈ (entries.foldl (dtscanStep gd mp maxC) acc).1, ∃ v nbrs,
          (v, nbrs) ∈ gd.vertex_connections ∧
          C.head? = some v ∧ isCore gd mp maxC v nbrs = true ∧
          ∀ x ∈ C, x = v ∨ ∃ p ∈ C, closeNbr gd maxC p x) := by
  intro entries
  induction entries with
  | nil => intro acc _ h1 h2 h3; exact ⟨h1, h2, h3⟩
  | cons e rest ih =>
    intro acc hin h1 h2 h3
    simp only [List.foldl_cons]
    obtain ⟨g1, g2, g3⟩ := dtscanStep_inv gd mp maxC acc e
      (hin e (List.mem_cons_self _ _)) h1 h2 h3
    exact ih _ (fun x hx => hin x (List.mem_cons_of_mem _ hx)) g1 g2 g3

/-- C5: every dtscan cluster begins at a core vertex (at least `min_pts`
recorded neighbors, all within `max_closeness`), and each of its members is
either that seed or is admitted through a close edge from another member of
the same cluster. -/
theorem c5_dtscan_core_and_closeness (gd : GeometryData) (mp : ℕ) (maxC : ℚ) :
    ∀ C ∈ dtscan gd mp maxC, ∃ v nbrs,
      (v, nbrs) ∈ gd.vertex_connections ∧
      C.head? = some v ∧
      isCore gd mp maxC v nbrs = true ∧
      ∀ x ∈ C, x = v ∨ ∃ p ∈ C, closeNbr gd maxC p x := by
  have h := dtscanFold_inv gd mp maxC gd.vertex_connections ([], [])
    (fun e he => he) (by intro C hC; simp at hC) List.Pairwise.nil
    (by intro C hC; simp at hC)
  exact h.2.2

/-- C6: the dtscan output contains no vertex twice: every cluster is
duplicate-free and distinct clusters are disjoint. -/
theorem c6_dtscan_clusters_disjoint (gd : GeometryData) (mp : ℕ) (maxC : ℚ) :
    (∀ C ∈ dtscan gd mp maxC, C.Nodup) ∧
    List.Pairwise (fun a b => ∀ x ∈ a, x ∉ b) (dtscan gd mp maxC) := by
  have h := dtscanFold_inv gd mp maxC gd.vertex_connections ([], [])
    (fun e he => he) (by intro C hC; simp at hC) List.Pairwise.nil
    (by intro C hC; simp at hC)
  exact ⟨fun C hC => (h.1 C hC).1, h.2.1⟩

/-- Witness for C5: the first cluster dtscan finds on the two-triangle
input. -/
theorem c5_dtscan_core_and_closeness_witness :
    ∃ v nbrs,
      (v, nbrs) ∈ gdTwo.vertex_connections ∧
      ([1, 2, 0] : List ℕ).head? = some v ∧
      isCore gdTwo 2 2 v nbrs = true ∧
      ∀ x ∈ ([1, 2, 0] : List ℕ), x = v ∨
        ∃ p ∈ ([1, 2, 0] : List ℕ), closeNbr gdTwo 2 p x :=
  c5_dtscan_core_and_closeness gdTwo 2 2 [1, 2, 0] (by decide)

/-- Witness for C6: the two clusters on the two-triangle input are each
duplicate-free and mutually disjoint. -/
theorem c6_dtscan_clusters_disjoint_witness :
    ([1, 2, 0] : List ℕ).Nodup ∧
    (∀ x ∈ ([1, 2, 0] : List ℕ), x ∉ ([4, 5, 3] : List ℕ)) := by
  have h := c6_dtscan_clusters_disjoint gdTwo 2 2
  constructor
  · exact h.1 [1, 2, 0] (by decide)
  · have hp := h.2
    have he : dtscan gdTwo 2 2 = [[1, 2, 0], [4, 5, 3]] := by decide
    rw [he] at hp
    exact (List.pairwise_cons.mp hp).1 [4, 5, 3] (List.mem_singleton_self _)

theorem mem_foldl_insertEdgeQ :
    ∀ (l : List Edge) (q : List Edge) (x : Edge),
      x ∈ l.foldl insertEdgeQ q → x ∈ q ∨ x ∈ l := by
  intro l
  induction l with
  | nil => intro q x hx; exact Or.inl hx
  | cons e rest ih =>
    intro q x hx
    rcases ih (insertEdgeQ q e) x hx with h | h
    · unfold insertEdgeQ at h
      split at h
      · exact Or.inl h
      · rcases List.mem_append.mp h with h | h
        · exact Or.inl h
        · have hxe := List.mem_singleton.mp h
          subst hxe
          exact Or.inr (List.mem_cons_self _ _)
    · exact Or.inr (List.mem_cons_of_mem _ h)

theorem delfinNbrStep_inv (gd : GeometryData) (e : Edge) (P0 : List ℕ)
    (seed : ℕ) (s : List ℕ × List ℕ × List Edge) (n : ℕ)
    (hinv : delfinInv gd P0 seed s)
    (hqe : ∃ p ∈ s.1, e ∈ triEdges gd p) :
    delfinInv gd P0 seed (delfinNbrStep gd e s n) ∧
    (∀ x ∈ s.2.1, x ∈ (delfinNbrStep gd e s n).2.1) ∧
    (∃ t, (delfinNbrStep gd e s n).1 = s.1 ++ t) := by
  obtain ⟨h1, h2, h3, h4, h5⟩ := hinv
  unfold delfinNbrStep
  by_cases hp : n ∈ s.2.1
  · rw [if_pos hp]
    exact ⟨⟨h1, h2, h3, h4, h5⟩, fun x hx => hx, [], by simp⟩
  · rw [if_neg hp]
    cases hg : gd.triangles.get? n with
    | none =>
      dsimp only
      exact ⟨⟨h1, h2, h3, h4, h5⟩, fun x hx => hx, [], by simp⟩
    | some nd =>
      dsimp only
      cases ht : nd.terminal_edge with
      | none =>
        dsimp only
        exact ⟨⟨h1, h2, h3, h4, h5⟩, fun x hx => hx, [], by simp⟩
      | some te =>
        dsimp only
        by_cases hte : te = e
        · rw [if_pos hte]
          have hmemn : n ∈ (if n ∈ s.1 then s.1 else s.1 ++ [n]) := by
            split
            · assumption
            · exact List.mem_append.mpr (Or.inr (List.mem_singleton_self _))
          have hold : ∀ x ∈ s.1, x ∈ (if n ∈ s.1 then s.1 else s.1 ++ [n]) := by
            intro x hx
            split
            · exact hx
            · exact List.mem_append.mpr (Or.inl hx)
          have hcases : ∀ x ∈ (if n ∈ s.1 then s.1 else s.1 ++ [n]),
              x ∈ s.1 ∨ x = n := by
            intro x hx
            split at hx
            · exact Or.inl hx
            · rcases List.mem_append.mp hx with h | h
              · exact Or.inl h
              · exact Or.inr (List.mem_singleton.mp h)
          refine ⟨⟨?_, ?_, ?_, ?_, ?_⟩, ?_, ?_⟩
          · intro x hx
            exact List.mem_cons_of_mem _ (h1 x hx)
          · intro x hx
            rcases hcases x hx with h | rfl
            · exact h2 x h
            · exact fun hc => hp (h1 x hc)
          · intro x hx
            rcases hcases x hx with h | rfl
            · exact List.mem_cons_of_mem _ (h3 x h)
            · exact List.mem_cons_self _ _
          · intro e2 he2
            rcases mem_foldl_insertEdgeQ _ _ _ he2 with h | h
            · obtain ⟨p, hpm, hpe⟩ := h4 e2 h
              exact ⟨p, hold p hpm, hpe⟩
            · refine ⟨n, hmemn, ?_⟩
              unfold triEdges
              rw [hg]
              exact h
          · intro x hx
            rcases hcases x hx with h | rfl
            · rcases h5 x h with h | ⟨p, hpm, nd2, te2, hh⟩
              · exact Or.inl h
              · exact Or.inr ⟨p, hold p hpm, nd2, te2, hh⟩
            · obtain ⟨p, hpm, hpe⟩ := hqe
              exact Or.inr ⟨p, hold p hpm, nd, te, hg, ht, hte ▸ hpe⟩
          · intro x hx
            exact List.mem_cons_of_mem _ hx
          · split
            · exact ⟨[], by simp⟩
            · exact ⟨[n], rfl⟩
        · rw [if_neg hte]
          exact ⟨⟨h1, h2, h3, h4, h5⟩, fun x hx => hx, [], by simp⟩

theorem delfinEdgeStep_inv (gd : GeometryData) (e : Edge) (P0 : List ℕ)
    (seed : ℕ) (st : List ℕ × List ℕ × List Edge)
    (hinv : delfinInv gd P0 seed st)
    (hqe : ∃ p ∈ st.1, e ∈ triEdges gd p) :
    delfinInv gd P0 seed (delfinEdgeStep gd e st) ∧
    (∀ x ∈ st.2.1, x ∈ (delfinEdgeStep gd e st).2.1) ∧
    (∃ t, (delfinEdgeStep gd e st).1 = st.1 ++ t) := by
  unfold delfinEdgeStep
  generalize (alookup gd.edge_to_triangles e).getD [] = nbrs
  induction nbrs generalizing st with
  | nil => exact ⟨hinv, fun x hx => hx, [], by simp⟩
  | cons n rest ih =>
    simp only [List.foldl_cons]
    obtain ⟨g1, g2, t1, ht1⟩ := delfinNbrStep_inv gd e P0 seed st n hinv hqe
    obtain ⟨p, hpm, hpe⟩ := hqe
    obtain ⟨f1, f2, t2, ht2⟩ := ih (delfinNbrStep gd e st n) g1
      ⟨p, by rw [ht1]; exact List.mem_append.mpr (Or.inl hpm), hpe⟩
    refine ⟨f1, fun x hx => f2 x (g2 x hx), ?_⟩
    exact ⟨t1 ++ t2, by rw [ht2, ht1, List.append_assoc]⟩

theorem delfinExpand_inv (gd : GeometryData) (P0 : List ℕ) (seed : ℕ) :
    ∀ (fuel : ℕ) (q : List Edge) (cur proc : List ℕ),
      delfinInv gd P0 seed (cur, proc, q) →
      (∀ x ∈ proc, x ∈ (delfinExpand gd fuel q cur proc).2) ∧
      (∀ x ∈ P0, x ∈ (delfinExpand gd fuel q cur proc).2) ∧
      (∀ x ∈ (delfinExpand gd fuel q cur proc).1, x ∉ P0) ∧
      (∀ x ∈ (delfinExpand gd fuel q cur proc).1,
        x ∈ (delfinExpand gd fuel q cur proc).2) ∧
      (∃ t, (delfinExpand gd fuel q cur proc).1 = cur ++ t) ∧
      (∀ x ∈ (delfinExpand gd fuel q cur proc).1, x = seed ∨
        ∃ p ∈ (delfinExpand gd fuel q cur proc).1, ∃ nd te,
          gd.triangles.get? x = some nd ∧ nd.terminal_edge = some te ∧
          te ∈ triEdges gd p) := by
  intro fuel
  induction fuel with
  | zero =>
    intro q cur proc hinv
    obtain ⟨h1, h2, h3, h4, h5⟩ := hinv
    exact ⟨fun x hx => hx, h1, h2, h3, ⟨[], by simp [delfinExpand]⟩,
      fun x hx => (h5 x hx).imp id (fun ⟨p, hp, rest⟩ => ⟨p, hp, rest⟩)⟩
  | succ f ih =>
    intro q cur proc hinv
    cases q with
    | nil =>
      obtain ⟨h1, h2, h3, h4, h5⟩ := hinv
      exact ⟨fun x hx => hx, h1, h2, h3, ⟨[], by simp [delfinExpand]⟩,
        fun x hx => (h5 x hx).imp id (fun ⟨p, hp, rest⟩ => ⟨p, hp, rest⟩)⟩
    | cons e q2 =>
      have hinv2 : delfinInv gd P0 seed (cur, proc, q2) := by
        obtain ⟨h1, h2, h3, h4, h5⟩ := hinv
        exact ⟨h1, h2, h3, fun e2 he2 => h4 e2 (List.mem_cons_of_mem _ he2), h5⟩
      have hqe : ∃ p ∈ (cur, proc, q2).1, e ∈ triEdges gd p :=
        hinv.2.2.2.1 e (List.mem_cons_self _ _)
      obtain ⟨g1, g2, t1, ht1⟩ := delfinEdgeStep_inv gd e P0 seed
        (cur, proc, q2) hinv2 hqe
      show (∀ x ∈ proc, x ∈ (delfinExpand gd f
          (delfinEdgeStep gd e (cur, proc, q2)).2.2
          (delfinEdgeStep gd e (cur, proc, q2)).1
          (delfinEdgeStep gd e (cur, proc, q2)).2.1).2) ∧ _
      set st := delfinEdgeStep gd e (cur, proc, q2) with hst
      have hres := ih st.2.2 st.1 st.2.1 (by
        obtain ⟨a1, a2, a3, a4, a5⟩ := g1
        exact ⟨a1, a2, a3, a4, a5⟩)
      obtain ⟨r1, r2, r3, r4, ⟨t2, ht2⟩, r6⟩ := hres
      refine ⟨fun x hx => r1 x (g2 x hx), r2, r3, r4, ⟨t1 ++ t2, ?_⟩, r6⟩
      show (delfinExpand gd f st.2.2 st.1 st.2.1).1 = cur ++ (t1 ++ t2)
      rw [ht2, ht1]
      dsimp only
      rw [List.append_assoc]

theorem delfinStep_inv (gd : GeometryData) (acc : List (List ℕ) × List ℕ)
    (p : ℕ × ℚ)
    (h1 : ∀ S ∈ acc.1, (∀ x ∈ S, x ∈ acc.2) ∧ 1 < S.length ∧
      ∃ v, S.head? = some v ∧ ∀ x ∈ S, x = v ∨ ∃ q ∈ S, ∃ nd te,
        gd.triangles.get? x = some nd ∧ nd.terminal_edge = some te ∧
        te ∈ triEdges gd q)
    (h2 : List.Pairwise (fun a b => ∀ x ∈ a, x ∉ b) acc.1) :
    (∀ S ∈ (delfinStep gd acc p).1, (∀ x ∈ S, x ∈ (delfinStep gd acc p).2) ∧
      1 < S.length ∧
      ∃ v, S.head? = some v ∧ ∀ x ∈ S, x = v ∨ ∃ q ∈ S, ∃ nd te,
        gd.triangles.get? x = some nd ∧ nd.terminal_edge = some te ∧
        te ∈ triEdges gd q) ∧
    List.Pairwise (fun a b => ∀ x ∈ a, x ∉ b) (delfinStep gd acc p).1 := by
  unfold delfinStep
  by_cases hv : p.1 ∈ acc.2
  · rw [if_pos hv]
    exact ⟨h1, h2⟩
  · rw [if_neg hv]
    have hinv : delfinInv gd acc.2 p.1
        ([p.1], p.1 :: acc.2, (triEdges gd p.1).foldl insertEdgeQ []) := by
      refine ⟨?_, ?_, ?_, ?_, ?_⟩
      · intro x hx
        exact List.mem_cons_of_mem _ hx
      · intro x hx
        rw [List.mem_singleton.mp hx]
        exact hv
      · intro x hx
        rw [List.mem_singleton.mp hx]
        exact List.mem_cons_self _ _
      · intro e2 he2
        rcases mem_foldl_insertEdgeQ _ _ _ he2 with h | h
        · simp at h
        · exact ⟨p.1, List.mem_singleton_self _, h⟩
      · intro x hx
        exact Or.inl (List.mem_singleton.mp hx)
    obtain ⟨r1, r2, r3, r4, ⟨t, ht⟩, r6⟩ := delfinExpand_inv gd acc.2 p.1
      (delfinFuel gd) ((triEdges gd p.1).foldl insertEdgeQ []) [p.1]
      (p.1 :: acc.2) hinv
    set r := delfinExpand gd (delfinFuel gd)
      ((triEdges gd p.1).foldl insertEdgeQ []) [p.1] (p.1 :: acc.2) with hr
    by_cases hlen : 1 < r.1.length
    · rw [if_pos hlen]
      refine ⟨?_, ?_⟩
      · intro S hS
        rcases List.mem_append.mp hS with hS | hS
        · obtain ⟨a1, a2, a3⟩ := h1 S hS
          exact ⟨fun x hx => r1 x (List.mem_cons_of_mem _ (a1 x hx)), a2, a3⟩
        · rw [List.mem_singleton.mp hS]
          refine ⟨r4, hlen, p.1, ?_, r6⟩
          rw [ht]
          rfl
      · rw [List.pairwise_append]
        refine ⟨h2, List.pairwise_singleton _ _, ?_⟩
        intro a ha b hb x hx
        rw [List.mem_singleton.mp hb]
        intro hxr
        exact r3 x hxr ((h1 a ha).1 x hx)
    · rw [if_neg hlen]
      refine ⟨?_, h2⟩
      intro S hS
      obtain ⟨a1, a2, a3⟩ := h1 S hS
      exact ⟨fun x hx => r1 x (List.mem_cons_of_mem _ (a1 x hx)), a2, a3⟩

theorem delfinFold_inv (gd : GeometryData) :
    ∀ (seeds : List (ℕ × ℚ)) (acc : List (List ℕ) × List ℕ),
      (∀ S ∈ acc.1, (∀ x ∈ S, x ∈ acc.2) ∧ 1 < S.length ∧
        ∃ v, S.head? = some v ∧ ∀ x ∈ S, x = v ∨ ∃ q ∈ S, ∃ nd te,
          gd.triangles.get? x = some nd ∧ nd.terminal_edge = some te ∧
          te ∈ triEdges gd q) →
      List.Pairwise (fun a b => ∀ x ∈ a, x ∉ b) acc.1 →
      (∀ S ∈ (seeds.foldl (delfinStep gd) acc).1,
        (∀ x ∈ S, x ∈ (seeds.foldl (delfinStep gd) acc).2) ∧ 1 < S.length ∧
        ∃ v, S.head? = some v ∧ ∀ x ∈ S, x = v ∨ ∃ q ∈ S, ∃ nd te,
          gd.triangles.get? x = some nd ∧ nd.terminal_edge = some te ∧
          te ∈ triEdges gd q) ∧
      List.Pairwise (fun a b => ∀ x ∈ a, x ∉ b)
        (seeds.foldl (delfinStep gd) acc).1 := by
  intro seeds
  induction seeds with
  | nil => intro acc h1 h2; exact ⟨h1, h2⟩
  | cons s rest ih =>
    intro acc h1 h2
    simp only [List.foldl_cons]
    obtain ⟨g1, g2⟩ := delfinStep_inv gd acc s h1 h2
    exact ih _ g1 g2

/-- C7: the regions delfin returns are pairwise disjoint triangle-index
sets: every admitted triangle is marked processed and a processed triangle
is never admitted again. -/
theorem c7_delfin_regions_disjoint (gd : GeometryData) (mA mD : ℚ) :
    List.Pairwise (fun a b => ∀ x ∈ a, x ∉ b) (delfin gd mA mD) := by
  have h := delfinFold_inv gd (delfinSeeds gd mD) ([], [])
    (by intro S hS; simp at hS) List.Pairwise.nil
  unfold delfin
  exact h.2.sublist (List.filter_sublist _)

/-- Witness for C7: on the two-squares input the two returned regions are
disjoint. -/
theorem c7_delfin_regions_disjoint_witness :
    ∀ x ∈ ([0, 1] : List ℕ), x ∉ ([2, 3] : List ℕ) := by
  have h := c7_delfin_regions_disjoint gdFour 0 0
  have he : delfin gdFour 0 0 = [[0, 1], [2, 3]] := by decide
  rw [he] at h
  exact (List.pairwise_cons.mp h).1 [2, 3] (List.mem_singleton_self _)

theorem mem_dedupInsert_self (l : List ℕ) (x : ℕ) : x ∈ dedupInsert l x := by
  unfold dedupInsert
  split
  · assumption
  · exact List.mem_append.mpr (Or.inr (List.mem_singleton_self _))

theorem mem_dedupInsert_of_mem (l : List ℕ) (x y : ℕ) (h : y ∈ l) :
    y ∈ dedupInsert l x := by
  unfold dedupInsert
  split
  · exact h
  · exact List.mem_append.mpr (Or.inl h)

theorem mem_foldl_dedupInsert :
    ∀ (l acc : List ℕ) (x : ℕ), x ∈ l ∨ x ∈ acc → x ∈ l.foldl dedupInsert acc := by
  intro l
  induction l with
  | nil =>
    intro acc x hx
    rcases hx with hx | hx
    · simp at hx
    · exact hx
  | cons y rest ih =>
    intro acc x hx
    simp only [List.foldl_cons]
    apply ih
    rcases hx with hx | hx
    · rw [List.mem_cons] at hx
      rcases hx with rfl | hx
      · exact Or.inr (mem_dedupInsert_self _ _)
      · exact Or.inl hx
    · exact Or.inr (mem_dedupInsert_of_mem _ _ _ hx)

theorem mem_dedupKeep (l : List ℕ) (x : ℕ) (h : x ∈ l) : x ∈ dedupKeep l :=
  mem_foldl_dedupInsert l [] x (Or.inl h)

theorem mainNbrFold_skip (gd : GeometryDataM) (te : Edge) :
    ∀ (l : List ℕ) (s pr : List ℕ), (∀ n ∈ l, n ∈ s) →
      l.foldl (mainNbrStep gd te) (s, pr, ([] : List ℕ)) = (s, pr, []) := by
  intro l
  induction l with
  | nil => intro s pr _; rfl
  | cons n rest ih =>
    intro s pr hl
    simp only [List.foldl_cons]
    have hstep : mainNbrStep gd te (s, pr, []) n = (s, pr, []) := by
      unfold mainNbrStep
      rw [if_pos (Or.inl (hl n (List.mem_cons_self _ _)))]
    rw [hstep]
    exact ih s pr (fun m hm => hl m (List.mem_cons_of_mem _ hm))

theorem mainExpand_inert (gd : GeometryDataM) (connected : List ℕ) (te : Edge) :
    ∀ (fuel : ℕ) (q s pr : List ℕ), (∀ n ∈ connected, n ∈ s) →
      mainExpand gd connected te fuel q s pr = (s, pr) := by
  intro fuel
  induction fuel with
  | zero => intro q s pr _; rfl
  | succ f ih =>
    intro q s pr hc
    cases q with
    | nil => rfl
    | cons cur rest =>
      show mainExpand gd connected te f
        (rest ++ (connected.foldl (mainNbrStep gd te) (s, pr, [])).2.2)
        (connected.foldl (mainNbrStep gd te) (s, pr, [])).1
        (connected.foldl (mainNbrStep gd te) (s, pr, [])).2.1 = (s, pr)
      rw [mainNbrFold_skip gd te connected s pr hc]
      exact ih _ s pr hc

theorem mainSeedStep_spec (gd : GeometryDataM) (mvLen : Option (ℚ × ℚ))
    (mD : ℚ) (acc : List (List ℕ) × List ℕ) (p : ℕ × ℚ)
    (h : ∀ S ∈ acc.1, ∃ i te connected,
      (gd.triangles.getD i TriangleDataM.defaultRecM).terminal_edge = some te ∧
      alookup gd.edge_to_triangles te = some connected ∧
      2 ≤ connected.length ∧
      S = dedupInsert (dedupKeep connected) i) :
    ∀ S ∈ (mainSeedStep gd mvLen mD acc p).1, ∃ i te connected,
      (gd.triangles.getD i TriangleDataM.defaultRecM).terminal_edge = some te ∧
      alookup gd.edge_to_triangles te = some connected ∧
      2 ≤ connected.length ∧
      S = dedupInsert (dedupKeep connected) i := by
  unfold mainSeedStep
  by_cases hv : p.1 ∈ acc.2
  · rw [if_pos hv]; exact h
  · rw [if_neg hv]
    by_cases hz : zLtOpt p.2 mvLen mD = true
    · rw [if_pos hz]; exact h
    · rw [if_neg hz]
      cases hte : (gd.triangles.getD p.1 TriangleDataM.defaultRecM).terminal_edge with
      | none => exact h
      | some te =>
        dsimp only
        cases hc : alookup gd.edge_to_triangles te with
        | none => exact h
        | some connected =>
          dsimp only
          by_cases hlen : connected.length < 2
          · rw [if_pos hlen]; exact h
          · rw [if_neg hlen]
            have hseed : ∀ n ∈ connected,
                n ∈ dedupInsert (dedupKeep connected) p.1 :=
              fun n hn => mem_dedupInsert_of_mem _ _ _ (mem_dedupKeep _ _ hn)
            rw [mainExpand_inert gd connected te _ _ _ _ hseed]
            intro S hS
            rcases List.mem_append.mp hS with hS | hS
            · exact h S hS
            · rw [List.mem_singleton.mp hS]
              exact ⟨p.1, te, connected, hte, hc, by omega, rfl⟩

theorem mainDelfinFold_spec (gd : GeometryDataM) (mvLen : Option (ℚ × ℚ))
    (mD : ℚ) :
    ∀ (seeds : List (ℕ × ℚ)) (acc : List (List ℕ) × List ℕ),
      (∀ S ∈ acc.1, ∃ i te connected,
        (gd.triangles.getD i TriangleDataM.defaultRecM).terminal_edge = some te ∧
        alookup gd.edge_to_triangles te = some connected ∧
        2 ≤ connected.length ∧
        S = dedupInsert (dedupKeep connected) i) →
      ∀ S ∈ (seeds.foldl (mainSeedStep gd mvLen mD) acc).1, ∃ i te connected,
        (gd.triangles.getD i TriangleDataM.defaultRecM).terminal_edge = some te ∧
        alookup gd.edge_to_triangles te = some connected ∧
        2 ≤ connected.length ∧
        S = dedupInsert (dedupKeep connected) i := by
  intro seeds
  induction seeds with
  | nil => intro acc h; exact h
  | cons s rest ih =>
    intro acc h
    simp only [List.foldl_cons]
    exact ih _ (mainSeedStep_spec gd mvLen mD acc s h)

/-- Counterexample to C2 as stated: in the library delfin (src/lib.rs) the
region is NOT seeded with the terminal-edge sharers.  On `gdTie`, triangle 0
has terminal edge (0, 1), that edge is shared by triangles 0 and 1, the seed
passes the distance filter with `min_distance = 0`, and the claimed seed
set {0, 1} would pass both the more-than-one-triangle and the
`min_area = 0` filters — yet delfin returns no region at all, because
triangle 1's own terminal edge is (0, 3), so it is never admitted into
triangle 0's region. -/
theorem c2_counterexample :
    (gdTie.triangles.getD 0 TriangleData.defaultRec).terminal_edge = some (0, 1) ∧
    (gdTie.triangles.getD 1 TriangleData.defaultRec).terminal_edge = some (0, 3) ∧
    alookup gdTie.edge_to_triangles (0, 1) = some [0, 1] ∧
    (0, 16) ∈ delfinSeeds gdTie 0 ∧
    (0 : ℚ) ≤ sumAreas gdTie [0, 1] ∧
    1 < ([0, 1] : List ℕ).length ∧
    delfin gdTie 0 0 = [] := by
  decide

/-- C2 (amended): both delfin variants take seeds in descending
terminal-edge-length order.  In the statistical variant (src/main.rs) every
returned region is exactly the seed together with all triangles sharing its
terminal edge (looked up via edge_to_triangles, required to number at least
two), the expansion loop adding nothing.  In the library variant
(src/lib.rs) the region is seeded with the triangle alone, and every other
member's own terminal edge coincides with an edge of a region member. -/
theorem c2_delfin_seeding_and_expansion (gd : GeometryData)
    (gdm : GeometryDataM) (mA mD mAm mDm : ℚ) :
    List.Sorted (fun a b : ℕ × ℚ => b.2 ≤ a.2) (delfinSeeds gd mD) ∧
    List.Sorted (fun a b : ℕ × ℚ => b.2 ≤ a.2) (mainDelfinSeeds gdm) ∧
    (∀ S ∈ mainDelfinRegions gdm mAm mDm, ∃ i te connected,
      (gdm.triangles.getD i TriangleDataM.defaultRecM).terminal_edge = some te ∧
      alookup gdm.edge_to_triangles te = some connected ∧
      2 ≤ connected.length ∧
      S = dedupInsert (dedupKeep connected) i) ∧
    (∀ S ∈ delfin gd mA mD, ∃ v, S.head? = some v ∧
      ∀ x ∈ S, x = v ∨ ∃ q ∈ S, ∃ nd te,
        gd.triangles.get? x = some nd ∧ nd.terminal_edge = some te ∧
        te ∈ triEdges gd q) := by
  refine ⟨sortDesc_sorted _, sortDesc_sorted _, ?_, ?_⟩
  · intro S hS
    unfold mainDelfinRegions at hS
    have hmem := (List.mem_filter.mp hS).1
    exact mainDelfinFold_spec gdm (mainLenStats gdm) mDm (mainDelfinSeeds gdm)
      ([], []) (by intro T hT; simp at hT) S hmem
  · intro S hS
    unfold delfin at hS
    have hmem := (List.mem_filter.mp hS).1
    have h := delfinFold_inv gd (delfinSeeds gd mD) ([], [])
      (by intro T hT; simp at hT) List.Pairwise.nil
    obtain ⟨-, -, v, hv, hgrow⟩ := h.1 S hmem
    exact ⟨v, hv, hgrow⟩

/-- Witness for the amended C2, instantiating the statistical-variant clause
on the thin-triangle soup and the library-variant clause on the two-squares
input. -/
theorem c2_delfin_seeding_and_expansion_witness :
    (∃ i te connected,
      (gdThinM.triangles.getD i TriangleDataM.defaultRecM).terminal_edge = some te ∧
      alookup gdThinM.edge_to_triangles te = some connected ∧
      2 ≤ connected.length ∧
      ([0, 1, 2] : List ℕ) = dedupInsert (dedupKeep connected) i) ∧
    (∃ v, ([0, 1] : List ℕ).head? = some v ∧
      ∀ x ∈ ([0, 1] : List ℕ), x = v ∨ ∃ q ∈ ([0, 1] : List ℕ), ∃ nd te,
        gdFour.triangles.get? x = some nd ∧ nd.terminal_edge = some te ∧
        te ∈ triEdges gdFour q) :=
  ⟨(c2_delfin_seeding_and_expansion gdFour gdThinM 0 0 1 0).2.2.1
      [0, 1, 2] (by decide),
   (c2_delfin_seeding_and_expansion gdFour gdThinM 0 0 1 0).2.2.2
      [0, 1] (by decide)⟩

/-- Counterexample to C8 as stated: on the thin-triangle soup the
statistical delfin (src/main.rs) returns the region {0, 1, 2} for
`min_area = 1`, although its raw summed area is 3/50 < 1 — the area filter
of that variant is a z-score test, not a raw-area bound. -/
theorem c8_counterexample :
    [0, 1, 2] ∈ mainDelfinRegions gdThinM 1 0 ∧
    sumAreasM gdThinM [0, 1, 2] < 1 := by
  decide

/-- C8 (amended): every region returned by the library delfin has summed
recorded area at least `min_area` and strictly more than one triangle;
every region retained by the statistical delfin has at least three
triangles and an area z-score (against the triangle-area population) at
least `min_area`. -/
theorem c8_region_filters (gd : GeometryData) (gdm : GeometryDataM)
    (mA mD mAm mDm : ℚ) :
    (∀ S ∈ delfin gd mA mD, mA ≤ sumAreas gd S ∧ 1 < S.length) ∧
    (∀ S ∈ mainDelfinRegions gdm mAm mDm,
      areaZGe (sumAreasM gdm S) (mainAreaStats gdm) mAm = true ∧
      3 ≤ S.length) := by
  constructor
  · intro S hS
    unfold delfin at hS
    obtain ⟨hmem, hpred⟩ := List.mem_filter.mp hS
    have h := delfinFold_inv gd (delfinSeeds gd mD) ([], [])
      (by intro T hT; simp at hT) List.Pairwise.nil
    exact ⟨of_decide_eq_true hpred, (h.1 S hmem).2.1⟩
  · intro S hS
    unfold mainDelfinRegions at hS
    obtain ⟨hmem, hpred⟩ := List.mem_filter.mp hS
    rw [Bool.and_eq_true] at hpred
    exact ⟨hpred.1, of_decide_eq_true hpred.2⟩

/-- Witness for the amended C8 on the two concrete graphs. -/
theorem c8_region_filters_witness :
    ((0 : ℚ) ≤ sumAreas gdFour [0, 1] ∧ 1 < ([0, 1] : List ℕ).length) ∧
    (areaZGe (sumAreasM gdThinM [0, 1, 2]) (mainAreaStats gdThinM) 1 = true ∧
      3 ≤ ([0, 1, 2] : List ℕ).length) :=
  ⟨(c8_region_filters gdFour gdThinM 0 0 1 0).1 [0, 1] (by decide),
   (c8_region_filters gdFour gdThinM 0 0 1 0).2 [0, 1, 2] (by decide)⟩

/-- C1 (code bug): on the branching boundary `hullStar` the walk of
order_hull_edges happens to complete, so instead of the claimed descriptive
failure the function returns `Ok` — and the returned value is the list of
first endpoints of the input edges in input order, `[1, 0, 0]`, which
repeats vertex 0 in adjacent positions although no boundary edge joins a
vertex to itself.  The continuous path computed into
`ordered_point_indices` is discarded by the source's final line. -/
theorem c1_order_hull_edges_unordered :
    orderHullEdges hullStar = Except.ok [1, 0, 0] ∧
    ¬ ([1, 0, 0] : List ℕ).Nodup ∧
    (∀ e ∈ hullStar, e.1 ≠ e.2) := by
  refine ⟨rfl, by decide, by decide⟩

/-- C9: with finite coordinates, the distance pipeline of `Point::distance`
never produces a NaN (in the `F32` classification model), `partial_cmp` on
two non-NaN values is always defined, so neither the three-edge sort of
add_triangle nor delfin's descending sort over recorded lengths can hit the
`unwrap` of a `None` comparison. -/
theorem c9_no_nan_lengths :
    (∀ a b : F32 × F32, finitePtF a → finitePtF b →
      (distF a b).isNaN = false) ∧
    (∀ x y : F32, x.isNaN = false → y.isNaN = false →
      (cmpF32 x y).isSome = true) ∧
    (∀ pa pb pc : F32 × F32, finitePtF pa → finitePtF pb → finitePtF pc →
      ∀ x ∈ triLengthsF pa pb pc, ∀ y ∈ triLengthsF pa pb pc,
        (cmpF32 x y).isSome = true) ∧
    (∀ l : List F32,
      (∀ x ∈ l, ∃ p q, finitePtF p ∧ finitePtF q ∧ x = distF p q) →
      ∀ x ∈ l, ∀ y ∈ l, (cmpF32 x y).isSome = true) := by
  have key : ∀ a b : F32 × F32, finitePtF a → finitePtF b →
      (distF a b).isNaN = false := by
    rintro ⟨a1, a2⟩ ⟨b1, b2⟩ ⟨⟨qa1, rfl⟩, ⟨qa2, rfl⟩⟩ ⟨⟨qb1, rfl⟩, ⟨qb2, rfl⟩⟩
    show (fsqrt (fadd (fsq (fsub (F32.fin qb1) (F32.fin qa1)))
      (fsq (fsub (F32.fin qb2) (F32.fin qa2))))).isNaN = false
    simp only [fsub, fsq, fadd, fsqrt]
    rw [if_neg]
    · rfl
    · push_neg
      exact add_nonneg (mul_self_nonneg _) (mul_self_nonneg _)
  have keyCmp : ∀ x y : F32, x.isNaN = false → y.isNaN = false →
      (cmpF32 x y).isSome = true := by
    intro x y hx hy
    cases x <;> cases y <;> simp_all [cmpF32, F32.isNaN]
  refine ⟨key, keyCmp, ?_, ?_⟩
  · intro pa pb pc ha hb hc x hx y hy
    have hxn : x.isNaN = false := by
      simp only [triLengthsF, List.mem_cons, List.mem_singleton,
        List.not_mem_nil, or_false] at hx
      rcases hx with rfl | rfl | rfl
      · exact key pa pb ha hb
      · exact key pb pc hb hc
      · exact key pc pa hc ha
    have hyn : y.isNaN = false := by
      simp only [triLengthsF, List.mem_cons, List.mem_singleton,
        List.not_mem_nil, or_false] at hy
      rcases hy with rfl | rfl | rfl
      · exact key pa pb ha hb
      · exact key pb pc hb hc
      · exact key pc pa hc ha
    exact keyCmp x y hxn hyn
  · intro l hl x hx y hy
    obtain ⟨p1, q1, hp1, hq1, rfl⟩ := hl x hx
    obtain ⟨p2, q2, hp2, hq2, rfl⟩ := hl y hy
    exact keyCmp _ _ (key p1 q1 hp1 hq1) (key p2 q2 hp2 hq2)

/-- Witness for C9 at concrete finite points. -/
theorem c9_no_nan_lengths_witness :
    (distF (F32.fin 0, F32.fin 0) (F32.fin 3, F32.fin 4)).isNaN = false ∧
    (cmpF32 (distF (F32.fin 0, F32.fin 0) (F32.fin 3, F32.fin 4))
      (distF (F32.fin 0, F32.fin 0) (F32.fin 1, F32.fin 1))).isSome = true :=
  ⟨c9_no_nan_lengths.1 (F32.fin 0, F32.fin 0) (F32.fin 3, F32.fin 4)
      ⟨⟨0, rfl⟩, ⟨0, rfl⟩⟩ ⟨⟨3, rfl⟩, ⟨4, rfl⟩⟩,
   c9_no_nan_lengths.2.1 _ _ (by decide) (by decide)⟩
